import Mathlib

/-!
Shallow embedding of the ai-chatbot ingestion and retrieval pipeline.

Strings are modelled as lists of characters.  Each definition mirrors one
JavaScript function of the repository; the JS while-loops are modelled with an
explicit fuel argument that equals the loop bound of the source code
(sufficiency of the fuel is proved where it matters).
-/

set_option autoImplicit false
set_option maxRecDepth 2000

abbrev Str := List Char

/-- JS whitespace test (the characters relevant to this code base). -/
def isWsB (c : Char) : Bool := c = ' ' || c = '\t' || c = '\n' || c = '\r'

/-- Sentence-terminator test, the character class of the chunker regex. -/
def isPunctB (c : Char) : Bool := c = '.' || c = '!' || c = '?'

/-- JS String.prototype.trim: drop whitespace from both ends. -/
def jsTrim (s : Str) : Str := ((s.dropWhile isWsB).reverse.dropWhile isWsB).reverse

/-- JS String.prototype.split with a single-character separator:
splits at every occurrence, keeping empty segments. -/
def splitOnChar (sep : Char) : Str → List Str
  | [] => [[]]
  | c :: s =>
    if c = sep then [] :: splitOnChar sep s
    else
      match splitOnChar sep s with
      | [] => [[c]]
      | w :: ws => (c :: w) :: ws

/-- The maximal non-whitespace runs of a string, in order (the
whitespace-delimited words). -/
def wordsOf : Str → List Str
  | [] => []
  | c :: s =>
    if isWsB c then wordsOf s
    else
      match s with
      | [] => [[c]]
      | d :: _ =>
        if isWsB d then [c] :: wordsOf s
        else
          match wordsOf s with
          | [] => [[c]]
          | w :: ws => (c :: w) :: ws

/-- JS String.prototype.lastIndexOf applied to a single space character:
index of the last occurrence of a plain space, if any. -/
def lastSpaceIdx : Str → Option Nat
  | [] => none
  | c :: s =>
    match lastSpaceIdx s with
    | some i => some (i + 1)
    | none => if c = ' ' then some 0 else none

/-- The global-match semantics of the chunker regex: at each position the
engine first tries one-or-more non-terminator characters followed by
one-or-more terminator characters; failing that, a maximal non-whitespace run;
failing both it advances one character.  The fuel bounds the scan; an initial
fuel equal to the string length is always sufficient because every branch
consumes at least one character. -/
def jsTokenizeAux : Nat → Str → List Str
  | 0, _ => []
  | _, [] => []
  | fuel + 1, c :: s =>
    let run1 := (c :: s).takeWhile (fun d => !isPunctB d)
    let rest1 := (c :: s).dropWhile (fun d => !isPunctB d)
    if run1.length ≠ 0 ∧ rest1.length ≠ 0 then
      let run2 := rest1.takeWhile isPunctB
      (run1 ++ run2) :: jsTokenizeAux fuel (rest1.dropWhile isPunctB)
    else if ¬ isWsB c then
      ((c :: s).takeWhile (fun d => !isWsB d)) ::
        jsTokenizeAux fuel ((c :: s).dropWhile (fun d => !isWsB d))
    else
      jsTokenizeAux fuel s

/-- Tokenization used by splitTextIntoDocuments: the matches of the regex
over the whole text. -/
def jsTokenize (s : Str) : List Str := jsTokenizeAux s.length s

/-- The inner while-loop of splitTextIntoDocuments that hard-splits a single
sentence longer than maxSize.  Each iteration slices off either everything up
to the last space of the first maxSize characters, or exactly maxSize
characters; the remainder is trimmed.  Returns the emitted chunks and the
final remainder; an initial fuel equal to the sentence length is sufficient
whenever maxSize is at least one. -/
def hardSplit (maxSize : Nat) : Nat → Str → List Str × Str
  | 0, s => ([], s)
  | fuel + 1, s =>
    if s.length ≤ maxSize then ([], s)
    else
      let chunk := s.take maxSize
      match lastSpaceIdx chunk with
      | some i =>
        if 0 < i then
          let r := hardSplit maxSize fuel (jsTrim (s.drop i))
          (jsTrim (chunk.take i) :: r.1, r.2)
        else
          let r := hardSplit maxSize fuel (jsTrim (s.drop maxSize))
          (chunk :: r.1, r.2)
      | none =>
        let r := hardSplit maxSize fuel (jsTrim (s.drop maxSize))
        (chunk :: r.1, r.2)

/-- The overlap-seeding while-loop of splitTextIntoDocuments: pops words off
the end of the flushed buffer (the list argument is the word list already
reversed) and prepends each popped word plus a space to the new buffer until
the reclaimed size reaches the overlap or no word remains. -/
def overlapSeedAux (overlap : Nat) : List Str → Str → Nat → Str
  | [], cur, _ => cur
  | w :: ws, cur, sz =>
    if sz < overlap then overlapSeedAux overlap ws (w ++ ' ' :: cur) (sz + w.length + 1)
    else cur

/-- One iteration of the main for-loop of splitTextIntoDocuments over a
sentence token: trim, hard-split an over-long sentence, flush the running
buffer when the sentence does not fit (seeding the next buffer with the
overlap window), then append the sentence and a space to the buffer. -/
def splitStep (maxSize overlap : Nat) (st : List Str × Str) (sen : Str) : List Str × Str :=
  let s0 := jsTrim sen
  let hs := hardSplit maxSize s0.length s0
  let docs1 := st.1 ++ hs.1
  let s := hs.2
  if maxSize < st.2.length + s.length then
    if 0 < st.2.length then
      (docs1 ++ [jsTrim st.2],
        overlapSeedAux overlap (splitOnChar ' ' st.2).reverse [] 0 ++ s ++ [' '])
    else (docs1, st.2 ++ s ++ [' '])
  else (docs1, st.2 ++ s ++ [' '])

/-- splitTextIntoDocuments from the ingestion route: clamps the overlap below
maxSize, tokenizes the text into sentence-like units, folds the main loop over
them and flushes the final non-empty buffer. -/
def splitTextIntoDocuments (text : Str) (maxSize : Nat := 1000) (overlap : Nat := 250) :
    List Str :=
  let ov := min overlap (maxSize - 1)
  let r := (jsTokenize text).foldl (splitStep maxSize ov) ([], [])
  if 0 < (jsTrim r.2).length then r.1 ++ [jsTrim r.2] else r.1

/-- JS Array.prototype.join with a separator string. -/
def joinSep (sep : Str) : List Str → Str
  | [] => []
  | [x] => x
  | x :: xs => x ++ sep ++ joinSep sep xs

/-- The element tags produced by processHTML: the page title, a heading of
level n (h1..h6), a paragraph or a list item. -/
inductive Tag where
  | title : Tag
  | head : Nat → Tag
  | para : Tag
  | item : Tag
deriving DecidableEq

/-- One structured element of a page, as yielded by processHTML. -/
structure Element where
  tag : Tag
  text : Str
deriving DecidableEq

/-- A generated ingestion document: chunk content plus its metadata source. -/
structure UDoc where
  content : Str
  source : Str
deriving DecidableEq

/-- The loop state of generateDocumentsFromUrl. -/
structure GenState where
  currentDocument : Str
  headingStack : List Str
  isNewSection : Bool
deriving DecidableEq

/-- The line common to every iteration of generateDocumentsFromUrl: append the
element text (with a leading space) to the section buffer unless the iteration
is the first one of a new section, then clear the new-section mark. -/
def applyTail (st : GenState) (txt : Str) : GenState :=
  { currentDocument :=
      st.currentDocument ++ (if st.isNewSection then [] else ' ' :: txt),
    headingStack := st.headingStack,
    isNewSection := false }

/-- Flushing the accumulated section text of generateDocumentsFromUrl: when
the trimmed buffer is non-empty, chunk it with the default chunker parameters
and emit one document per chunk, prefixed by the joined heading stack. -/
def flushSection (url : Str) (st : GenState) : List UDoc :=
  if jsTrim st.currentDocument = [] then []
  else
    (splitTextIntoDocuments (jsTrim st.currentDocument) 1000 250).map
      (fun d => ⟨joinSep ((" > ").toList) st.headingStack ++ (" => ").toList ++ d, url⟩)

/-- One iteration of generateDocumentsFromUrl over a structured element:
a title resets the heading stack; a heading of level n flushes the current
section, truncates the stack to length n and appends the heading text;
every element then runs the common tail line. -/
def urlStep (url : Str) (st : GenState) (e : Element) : List UDoc × GenState :=
  match e.tag with
  | Tag.title =>
      ([], applyTail ⟨st.currentDocument, [e.text], st.isNewSection⟩ e.text)
  | Tag.head n =>
      let docs := flushSection url st
      let cur1 := if jsTrim st.currentDocument = [] then st.currentDocument else []
      (docs, applyTail ⟨cur1, st.headingStack.take n ++ [e.text], true⟩ e.text)
  | _ => ([], applyTail st e.text)

/-- generateDocumentsFromUrl, applied to the structured elements of a fetched
page: fold the per-element step and flush the trailing section. -/
def generateDocumentsFromUrl (elems : List Element) (url : Str) : List UDoc :=
  let r := elems.foldl
    (fun (acc : List UDoc × GenState) e =>
      let p := urlStep url acc.2 e
      (acc.1 ++ p.1, p.2))
    ([], ⟨[], [], true⟩)
  r.1 ++ flushSection url r.2

/-- One iteration of generateDocumentsFromText over an input line: skip blank
lines; when appending the trimmed line would push the buffer past 2000
characters, flush the buffer through the chunker first; then append the line
re-terminated with a newline. -/
def textStep (userName : Str) (st : List UDoc × Str) (line : Str) : List UDoc × Str :=
  let t := jsTrim line
  if t = [] then st
  else
    let fl :=
      if 2000 < st.2.length + t.length then
        (st.1 ++ (splitTextIntoDocuments st.2 1000 250).map (fun d => ⟨d, userName⟩),
          ([] : Str))
      else st
    (fl.1, fl.2 ++ t ++ ['\n'])

/-- generateDocumentsFromText: split the input on newlines, fold the
per-line step and flush the trimmed trailing buffer. -/
def generateDocumentsFromText (text userName : Str) : List UDoc :=
  let r := (splitOnChar '\n' text).foldl (textStep userName) ([], [])
  if jsTrim r.2 = [] then r.1
  else r.1 ++ (splitTextIntoDocuments (jsTrim r.2) 1000 250).map (fun d => ⟨d, userName⟩)

/-- A stored record of the documents table.  The JS metadata field by is
named owner here because by is a Lean keyword. -/
structure Record where
  id : Nat
  content : Str
  embedding : List Int
  source : Str
  owner : Str
deriving DecidableEq

/-- insertDocument: skip contents whose single-space split has fewer than two
parts, otherwise append a new row (the id is the one assigned by the
database). -/
def insertDocument (newId : Nat) (content : Str) (embedding : List Int)
    (source owner : Str) (store : List Record) : List Record :=
  if (splitOnChar ' ' content).length < 2 then store
  else store ++ [⟨newId, content, embedding, source, owner⟩]

/-- deleteExistingDocuments: select the ids of the records whose metadata
source and owner both match exactly, and, when there is at least one, delete
every record carrying one of the selected ids. -/
def deleteExistingDocuments (url userId : Str) (store : List Record) : List Record :=
  let existingIds :=
    ((store.filter (fun r => r.source = url ∧ r.owner = userId)).map Record.id)
  if existingIds.isEmpty then store
  else store.filter (fun r => ¬ r.id ∈ existingIds)

/-- processDocument: obtain the embedding and insert the document; any error
of either step is caught inside the function and logged, so the call always
returns successfully.  The embedding result and a database-insert failure are
supplied as oracles. -/
def processDocument (embedRes : Except Str (List Int)) (insertFail : Bool)
    (newId : Nat) (d : UDoc) (userId : Str) (store : List Record) :
    List Record × Except Str Unit :=
  match embedRes with
  | Except.error _ => (store, Except.ok ())
  | Except.ok emb =>
    if insertFail then (store, Except.ok ())
    else (insertDocument newId d.content emb d.source userId store, Except.ok ())

/-- Events of the ingestion response stream. -/
inductive IngestEv where
  | percentage : Nat → IngestEv
  | error : Str → IngestEv
deriving DecidableEq

/-- The progress percentage Math.round(count / total * 100), in exact
arithmetic: floor(100 * count / total + 1/2). -/
def jsRound100 (count total : Nat) : Nat := (200 * count + total) / (2 * total)

/-- The second-pass loop of processUrlInput and processTextInput: process each
document, and since processDocument never throws, increment the processed
count and emit a progress percentage after every document; the catch branch
(no count, no emission) is retained for faithfulness. -/
def processDocsLoop (embedRes : Nat → Except Str (List Int)) (insertFail : Nat → Bool)
    (newId : Nat → Nat) (userId : Str) (total : Nat) :
    List UDoc → Nat → Nat → List Record → List Record × List IngestEv
  | [], _, _, store => (store, [])
  | d :: ds, idx, count, store =>
    let pr := processDocument (embedRes idx) (insertFail idx) (newId idx) d userId store
    match pr.2 with
    | Except.ok _ =>
      let rest := processDocsLoop embedRes insertFail newId userId total ds (idx + 1)
        (count + 1) pr.1
      (rest.1, IngestEv.percentage (jsRound100 (count + 1) total) :: rest.2)
    | Except.error _ =>
      let rest := processDocsLoop embedRes insertFail newId userId total ds (idx + 1)
        count pr.1
      (rest.1, rest.2)

/-- The environment of one URL ingestion run: the outcome of the stale-record
deletion, the two independent fetches performed by the two generator passes,
and the per-document embedding and insert oracles. -/
structure UrlEnv where
  deleteErr : Option Str
  fetch1 : Except Str (List Element)
  fetch2 : Except Str (List Element)
  embedRes : Nat → Except Str (List Int)
  insertFail : Nat → Bool
  newId : Nat → Nat

/-- processUrlInput: delete stale records, count the documents of a first
generator pass (first fetch), then process the documents of a second pass
(second fetch), emitting progress after each; any error of the deletion or of
a fetch is rethrown to the caller. -/
def processUrlInput (env : UrlEnv) (url userId : Str) (store : List Record) :
    List Record × Except Str (List IngestEv) :=
  match env.deleteErr with
  | some m => (store, Except.error m)
  | none =>
    let s1 := deleteExistingDocuments url userId store
    match env.fetch1 with
    | Except.error m => (s1, Except.error m)
    | Except.ok elems1 =>
      let total := (generateDocumentsFromUrl elems1 url).length
      match env.fetch2 with
      | Except.error m => (s1, Except.error m)
      | Except.ok elems2 =>
        let r := processDocsLoop env.embedRes env.insertFail env.newId userId total
          (generateDocumentsFromUrl elems2 url) 0 0 s1
        (r.1, Except.ok r.2)

/-- The environment of one text ingestion run. -/
structure TextEnv where
  embedRes : Nat → Except Str (List Int)
  insertFail : Nat → Bool
  newId : Nat → Nat

/-- processTextInput: two passes of the deterministic text generator, the
first only counting, the second processing and emitting progress; nothing in
this path throws. -/
def processTextInput (env : TextEnv) (text userName userId : Str)
    (store : List Record) : List Record × List IngestEv :=
  let docs := generateDocumentsFromText text userName
  processDocsLoop env.embedRes env.insertFail env.newId userId docs.length docs 0 0 store

/-- The POST handler of the ingestion route: validate the request, dispatch
to the URL or text path, append the terminal 100-percent event on success and
a single error event when anything threw. -/
def addContextPOST (env : UrlEnv) (tenv : TextEnv) (text : Str) (isUrl urlValid : Bool)
    (userName userId : Str) (store : List Record) : List Record × List IngestEv :=
  if text = [] then
    (store, [IngestEv.error (("Either text or URL must be provided").toList)])
  else if isUrl then
    if ¬ urlValid then (store, [IngestEv.error (("Invalid URL provided").toList)])
    else
      match processUrlInput env text userId store with
      | (s, Except.error m) => (s, [IngestEv.error m])
      | (s, Except.ok evts) => (s, evts ++ [IngestEv.percentage 100])
  else
    let r := processTextInput tenv text userName userId store
    (r.1, r.2 ++ [IngestEv.percentage 100])

/-- Decimal rendering of a natural number, used in the fetch error message. -/
def natStr (n : Nat) : Str := (Nat.repr n).toList

/-- The error message fetchWebContent throws after exhausting its retries. -/
def wrapFetchError (url : Str) (maxRetries : Nat) (msg : Str) : Str :=
  ("Failed to fetch ").toList ++ url ++ (" after ").toList ++ natStr maxRetries ++
    (" attempts: ").toList ++ msg

/-- Observable actions of fetchWebContent. -/
inductive FetchEv where
  | attempt : Nat → FetchEv
  | sleep : Nat → FetchEv
deriving DecidableEq

/-- The retry loop of fetchWebContent: while the attempt counter is below
maxRetries, perform one request (the oracle gives the outcome of each
attempt); return the body on success; on failure increment the counter,
throw the wrapped error once the counter reaches maxRetries, otherwise sleep
the fixed delay and loop.  The fuel equals maxRetries minus the counter, so
the zero-fuel branch is the loop falling through (which in JS returns
undefined, modelled as none). -/
def fetchLoop (res : Nat → Except Str Str) (url : Str) (maxRetries retryDelay : Nat) :
    Nat → Nat → List FetchEv × Option (Except Str Str)
  | _, 0 => ([], none)
  | attempt, fuel + 1 =>
    match res attempt with
    | Except.ok body => ([FetchEv.attempt (attempt + 1)], some (Except.ok body))
    | Except.error msg =>
      if maxRetries ≤ attempt + 1 then
        ([FetchEv.attempt (attempt + 1)],
          some (Except.error (wrapFetchError url maxRetries msg)))
      else
        let rest := fetchLoop res url maxRetries retryDelay (attempt + 1) fuel
        (FetchEv.attempt (attempt + 1) :: FetchEv.sleep retryDelay :: rest.1, rest.2)

/-- fetchWebContent with its attempt trace: run the retry loop from a zero
attempt counter. -/
def fetchWebContent (res : Nat → Except Str Str) (url : Str)
    (maxRetries : Nat := 3) (retryDelay : Nat := 1000) :
    List FetchEv × Option (Except Str Str) :=
  fetchLoop res url maxRetries retryDelay 0 maxRetries

/-- A row returned by the vector-store match query. -/
structure RDoc where
  id : Nat
  content : Str
deriving DecidableEq

/-- Events of the chat response stream. -/
inductive ChatEv where
  | context : List RDoc → ChatEv
  | content : Str → ChatEv
  | error : Str → ChatEv
deriving DecidableEq

/-- The environment of one chat request: the query-embedding outcome, the
match_documents call outcome, the completion deltas in generation order (none
when a chunk carries no content) and an optional error thrown while
streaming. -/
structure ChatEnv where
  embedRes : Except Str Unit
  rpcRes : Except Unit (List RDoc)
  chunks : List (Option Str)
  streamErr : Option Str

/-- The POST handler of the chat route: embed the query, run the ranked
match, emit one context event carrying the full match set, then one content
event per non-empty completion delta in order; any thrown error becomes a
single error event and the stream closes. -/
def chatPOST (env : ChatEnv) : List ChatEv :=
  match env.embedRes with
  | Except.error m => [ChatEv.error m]
  | Except.ok _ =>
    match env.rpcRes with
    | Except.error _ =>
      [ChatEv.error (("Failed to retrieve relevant documents").toList)]
    | Except.ok documents =>
      ChatEv.context documents ::
        ((env.chunks.filterMap id).filter (fun d => d ≠ [])).map ChatEv.content ++
          (match env.streamErr with
           | some m => [ChatEv.error m]
           | none => [])

/-! ## Lemmas and claim theorems -/

/-- Test for a context event. -/
def isContextEv : ChatEv → Bool
  | ChatEv.context _ => true
  | _ => false

/-- Test for an error event. -/
def isErrorEv : ChatEv → Bool
  | ChatEv.error _ => true
  | _ => false

/-- The delta carried by a content event. -/
def contentOf : ChatEv → Option Str
  | ChatEv.content d => some d
  | _ => none

/-- An ingestion environment whose two generator passes observe different
page contents: the first fetch sees one section, the second sees two. -/
def cexUrlEnv : UrlEnv :=
  { deleteErr := none,
    fetch1 := Except.ok [⟨Tag.title, ("T").toList⟩, ⟨Tag.para, ("a b").toList⟩],
    fetch2 := Except.ok [⟨Tag.title, ("T").toList⟩, ⟨Tag.para, ("a b").toList⟩,
      ⟨Tag.head 1, ("H").toList⟩, ⟨Tag.para, ("c d").toList⟩],
    embedRes := fun _ => Except.ok [],
    insertFail := fun _ => false,
    newId := fun i => i }

/-- A trivial text environment (unused by the URL path). -/
def cexTextEnv : TextEnv :=
  { embedRes := fun _ => Except.ok [],
    insertFail := fun _ => false,
    newId := fun i => i }

/-- A chat environment with successful retrieval, an empty match set, three
completion chunks of which only one carries non-empty content, and no error. -/
def wChatEnv : ChatEnv :=
  { embedRes := Except.ok (),
    rpcRes := Except.ok [],
    chunks := [some (("hi").toList), none, some []],
    streamErr := none }

/-- The percentage values of an event stream, in emission order. -/
def percentagesOf (evts : List IngestEv) : List Nat :=
  evts.filterMap (fun e => match e with
    | IngestEv.percentage n => some n
    | _ => none)

/-- An environment whose per-document steps all succeed, over the same page
as wUrlEnv. -/
def wUrlEnvOk : UrlEnv :=
  { deleteErr := none,
    fetch1 := Except.ok [⟨Tag.title, ("T").toList⟩, ⟨Tag.para, ("a b").toList⟩],
    fetch2 := Except.ok [⟨Tag.title, ("T").toList⟩, ⟨Tag.para, ("a b").toList⟩],
    embedRes := fun _ => Except.ok [],
    insertFail := fun _ => false,
    newId := fun i => i }

/-- An environment whose every per-document step fails, over a one-section
page fetched identically by both passes. -/
def wUrlEnv : UrlEnv :=
  { deleteErr := none,
    fetch1 := Except.ok [⟨Tag.title, ("T").toList⟩, ⟨Tag.para, ("a b").toList⟩],
    fetch2 := Except.ok [⟨Tag.title, ("T").toList⟩, ⟨Tag.para, ("a b").toList⟩],
    embedRes := fun _ => Except.error (("embed down").toList),
    insertFail := fun _ => true,
    newId := fun i => i }

/-- Prepend a string onto the first part of a part list. -/
def consHead (w : Str) : List Str → List Str
  | [] => [w]
  | y :: ys => (w ++ y) :: ys

/-- A chunk is good when it contains a word and is either trimmed or free of
plain spaces; every chunk the chunker emits is good. -/
def ChunkGood (c : Str) : Prop :=
  wordsOf c ≠ [] ∧ (jsTrim c = c ∨ ¬ ' ' ∈ c)

/-- Invariant of the chunker main loop for chunk goodness. -/
def ChunksInv (st : List Str × Str) : Prop :=
  (∀ c ∈ st.1, ChunkGood c) ∧ (st.2 = [] ∨ wordsOf st.2 ≠ [])

/-- The shape of every document generated from a URL: its source is the URL
and its content is a heading breadcrumb, the marker, and a chunker chunk. -/
def UrlDocShape (url : Str) (d : UDoc) : Prop :=
  d.source = url ∧ ∃ stack chunk t, chunk ∈ splitTextIntoDocuments t 1000 250 ∧
    d.content = joinSep ((" > ").toList) stack ++ (" => ").toList ++ chunk

/-- The records the second-pass loop adds to the store: one per document that
embeds successfully, passes the two-word guard and inserts without error. -/
def insertedRecords (e : Nat → Except Str (List Int)) (ins : Nat → Bool)
    (nid : Nat → Nat) (uid : Str) : List UDoc → Nat → List Record
  | [], _ => []
  | d :: ds, idx =>
    (match e idx with
     | Except.error _ => []
     | Except.ok emb =>
       if ins idx then []
       else if (splitOnChar ' ' d.content).length < 2 then []
       else [⟨nid idx, d.content, emb, d.source, uid⟩]) ++
      insertedRecords e ins nid uid ds (idx + 1)

/-- Concrete inputs for the idempotence witness. -/
def c6Url : Str := ("http://e.x").toList

def c6Uid : Str := ("me").toList

def c6Store : List Record :=
  [⟨1, ("a b").toList, [], c6Url, c6Uid⟩, ⟨2, ("k l").toList, [], ("other").toList, c6Uid⟩]

def c6Env : UrlEnv :=
  ⟨none, Except.ok [⟨Tag.para, ("hi there").toList⟩],
    Except.ok [⟨Tag.para, ("hi there").toList⟩],
    fun _ => Except.ok [3], fun _ => false, fun j => j + 10⟩

/-- The invariant of the main chunking loop that yields the size bound: every
emitted chunk fits in 2*maxSize + overlap, the running buffer is empty or
ends in a space, all its space-separated parts fit in maxSize, and its total
size fits in 2*maxSize + overlap + 1. -/
def LenInv (m ov : Nat) (st : List Str × Str) : Prop :=
  (∀ c ∈ st.1, c.length ≤ 2 * m + ov) ∧
  (st.2 = [] ∨ st.2.getLast? = some ' ') ∧
  (∀ p ∈ splitOnChar ' ' st.2, p.length ≤ m) ∧
  st.2.length ≤ 2 * m + ov + 1

/-- A word is clean when no sentence terminator inside it is followed by a
further non-terminator character: its non-terminator prefix is followed only
by terminators.  The sentence regex keeps clean words intact. -/
def cleanWord (w : Str) : Prop :=
  ∀ c ∈ w.dropWhile (fun d => !isPunctB d), isPunctB c = true

theorem filter_isContextEv_map_content (L : List Str) :
    (L.map ChatEv.content).filter isContextEv = [] := by
  induction L with
  | nil => rfl
  | cons d L ih => simp [isContextEv, ih]

theorem filter_isErrorEv_map_content (L : List Str) :
    (L.map ChatEv.content).filter isErrorEv = [] := by
  induction L with
  | nil => rfl
  | cons d L ih => simp [isErrorEv, ih]

theorem filterMap_contentOf_map_content (L : List Str) :
    (L.map ChatEv.content).filterMap contentOf = L := by
  induction L with
  | nil => rfl
  | cons d L ih => simpa [contentOf] using ih

/-- C2: for every text and maxSize, calling the chunker with any overlap at
least maxSize produces exactly the chunk sequence of overlap maxSize - 1 (the
overlap is clamped below maxSize); the model is total, so the call also
terminates. -/
theorem chunker_overlap_clamp (text : Str) (maxSize overlap : Nat)
    (h : maxSize ≤ overlap) :
    splitTextIntoDocuments text maxSize overlap =
      splitTextIntoDocuments text maxSize (maxSize - 1) := by
  unfold splitTextIntoDocuments
  rw [Nat.min_eq_right (le_trans (Nat.sub_le _ _) h), Nat.min_self]

theorem chunker_overlap_clamp_witness :
    splitTextIntoDocuments (("aaaa bbbb. cccc dddd. x").toList) 10 12 =
      splitTextIntoDocuments (("aaaa bbbb. cccc dddd. x").toList) 10 9 :=
  chunker_overlap_clamp (("aaaa bbbb. cccc dddd. x").toList) 10 12 (by decide)

/-- C3: every heading element of level n truncates the heading stack to
length n and then appends the heading text; concretely, the element sequence
title, h1 A, h2 B, h1 C with text under each heading yields the breadcrumbs
Title, then Title - A, then Title - A - B, then Title - C. -/
theorem heading_stack_truncation :
    (∀ (url : Str) (st : GenState) (n : Nat) (txt : Str),
        ((urlStep url st ⟨Tag.head n, txt⟩).2).headingStack =
          st.headingStack.take n ++ [txt])
    ∧ generateDocumentsFromUrl
        [⟨Tag.title, ("Title").toList⟩, ⟨Tag.head 1, ("A").toList⟩,
         ⟨Tag.para, ("ta").toList⟩, ⟨Tag.head 2, ("B").toList⟩,
         ⟨Tag.para, ("tb").toList⟩, ⟨Tag.head 1, ("C").toList⟩,
         ⟨Tag.para, ("tc").toList⟩] (("u").toList) =
        [⟨("Title > A => ta").toList, ("u").toList⟩,
         ⟨("Title > A > B => tb").toList, ("u").toList⟩,
         ⟨("Title > C => tc").toList, ("u").toList⟩] := by
  constructor
  · intro url st n txt
    simp [urlStep, applyTail]
  · decide

/-- C1 counterexample: with maxSize 10 and overlap 5, an input all of whose
whitespace-delimited words have length at most 10 still produces a chunk of
length 17, so the claimed bound fails even in the absence of an over-long
indivisible token. -/
theorem chunker_length_counterexample :
    (∀ w ∈ wordsOf (("aaaa bbbb. cccc dddd. x").toList), w.length ≤ 10)
    ∧ ∃ c ∈ splitTextIntoDocuments (("aaaa bbbb. cccc dddd. x").toList) 10 5,
        10 < c.length := by
  decide

/-- C4 counterexample: with the default parameters, the input a.b consists of
the single whitespace-delimited word a.b, but the only emitted chunk is
a. b, whose words are a. and b, so the input word is covered by no chunk. -/
theorem chunker_coverage_counterexample :
    ("a.b").toList ∈ wordsOf (("a.b").toList)
    ∧ ∀ c ∈ splitTextIntoDocuments (("a.b").toList) 1000 250,
        ¬ ("a.b").toList ∈ wordsOf c := by
  decide

/-- C7 counterexample: when the page content grows between the two generator
passes (the total is counted on the first fetch, the documents come from the
second), the run emits the percentage 200, violating the claimed 0..100 range,
and the emitted sequence 100, 200, 100 is not non-decreasing. -/
theorem progress_counterexample :
    (addContextPOST cexUrlEnv cexTextEnv (("u").toList) true true
        (("n").toList) (("me").toList) []).2 =
      [IngestEv.percentage 100, IngestEv.percentage 200, IngestEv.percentage 100]
    ∧ IngestEv.percentage 200 ∈
        (addContextPOST cexUrlEnv cexTextEnv (("u").toList) true true
          (("n").toList) (("me").toList) []).2
    ∧ 100 < 200 := by
  refine ⟨by decide, by decide, by decide⟩

/-- C8: with maxRetries 3 and retryDelay 1000, fetchWebContent performs at
most 3 attempts, sleeps the fixed delay between consecutive attempts, returns
the body of the first successful attempt (a URL failing twice then succeeding
performs exactly 3 attempts), and after three failures throws the last error
wrapped with the attempt count and the URL. -/
theorem fetch_retry_contract (res : Nat → Except Str Str) (url : Str) :
    ((fetchWebContent res url 3 1000).1.filter
        (fun e => match e with | FetchEv.attempt _ => true | _ => false)).length ≤ 3
    ∧ (∀ b, res 0 = Except.ok b →
        fetchWebContent res url 3 1000 = ([FetchEv.attempt 1], some (Except.ok b)))
    ∧ (∀ e0 b, res 0 = Except.error e0 → res 1 = Except.ok b →
        fetchWebContent res url 3 1000 =
          ([FetchEv.attempt 1, FetchEv.sleep 1000, FetchEv.attempt 2],
            some (Except.ok b)))
    ∧ (∀ e0 e1 b, res 0 = Except.error e0 → res 1 = Except.error e1 →
        res 2 = Except.ok b →
        fetchWebContent res url 3 1000 =
          ([FetchEv.attempt 1, FetchEv.sleep 1000, FetchEv.attempt 2,
            FetchEv.sleep 1000, FetchEv.attempt 3], some (Except.ok b)))
    ∧ (∀ e0 e1 e2, res 0 = Except.error e0 → res 1 = Except.error e1 →
        res 2 = Except.error e2 →
        fetchWebContent res url 3 1000 =
          ([FetchEv.attempt 1, FetchEv.sleep 1000, FetchEv.attempt 2,
            FetchEv.sleep 1000, FetchEv.attempt 3],
            some (Except.error (wrapFetchError url 3 e2)))) := by
  refine ⟨?_, ?_, ?_, ?_, ?_⟩
  · rcases h0 : res 0 with m0 | b0
    · rcases h1 : res 1 with m1 | b1
      · rcases h2 : res 2 with m2 | b2 <;>
          simp [fetchWebContent, fetchLoop, h0, h1, h2]
      · simp [fetchWebContent, fetchLoop, h0, h1]
    · simp [fetchWebContent, fetchLoop, h0]
  · intro b h0
    simp [fetchWebContent, fetchLoop, h0]
  · intro e0 b h0 h1
    simp [fetchWebContent, fetchLoop, h0, h1]
  · intro e0 e1 b h0 h1 h2
    simp [fetchWebContent, fetchLoop, h0, h1, h2]
  · intro e0 e1 e2 h0 h1 h2
    simp [fetchWebContent, fetchLoop, h0, h1, h2]

theorem fetch_retry_contract_witness :
    fetchWebContent
        (fun i => if i < 2 then Except.error (("boom").toList)
          else Except.ok (("body").toList)) (("u").toList) 3 1000 =
      ([FetchEv.attempt 1, FetchEv.sleep 1000, FetchEv.attempt 2,
        FetchEv.sleep 1000, FetchEv.attempt 3],
        some (Except.ok (("body").toList))) :=
  (fetch_retry_contract
      (fun i => if i < 2 then Except.error (("boom").toList)
        else Except.ok (("body").toList)) (("u").toList)).2.2.2.1
    (("boom").toList) (("boom").toList) (("body").toList) rfl rfl rfl

/-- C9: when embedding and retrieval succeed, the chat stream starts with
exactly one context event carrying the full match set (even when empty)
before any content event, the content events are the non-empty completion
deltas in generation order, and any failure produces a single error event
that is the last event of the stream, with earlier content retained. -/
theorem chat_stream_shape (env : ChatEnv) (docs : List RDoc) :
    (env.embedRes = Except.ok () → env.rpcRes = Except.ok docs →
      (chatPOST env).head? = some (ChatEv.context docs)
      ∧ ((chatPOST env).filter isContextEv).length = 1
      ∧ (chatPOST env).filterMap contentOf
          = (env.chunks.filterMap id).filter (fun d => d ≠ []))
    ∧ (∀ m, ChatEv.error m ∈ chatPOST env →
        (chatPOST env).getLast? = some (ChatEv.error m)
        ∧ ((chatPOST env).filter isErrorEv).length = 1) := by
  constructor
  · intro he hr
    refine ⟨?_, ?_, ?_⟩
    · simp [chatPOST, he, hr]
    · cases hs : env.streamErr <;>
        simp [chatPOST, he, hr, hs, isContextEv, List.filter_append,
          filter_isContextEv_map_content]
    · cases hs : env.streamErr <;>
      · simp only [chatPOST, he, hr, hs, List.filterMap_append, List.cons_append,
          List.filterMap_cons, contentOf, List.filterMap_map]
        rw [show (contentOf ∘ ChatEv.content) = some from rfl, List.filterMap_some]
        simp [contentOf]
  · intro m hm
    cases he : env.embedRes with
    | error m0 =>
      simp only [chatPOST, he] at hm ⊢
      simp only [List.mem_singleton] at hm
      cases hm
      exact ⟨rfl, rfl⟩
    | ok u =>
      cases u
      cases hr : env.rpcRes with
      | error u0 =>
        simp only [chatPOST, he, hr] at hm ⊢
        simp only [List.mem_singleton] at hm
        cases hm
        exact ⟨rfl, rfl⟩
      | ok docs0 =>
        cases hs : env.streamErr with
        | none =>
          simp only [chatPOST, he, hr, hs] at hm
          simp at hm
        | some m0 =>
          simp only [chatPOST, he, hr, hs] at hm ⊢
          have hm0 : m = m0 := by simpa using hm
          subst hm0
          constructor
          · rw [List.getLast?_concat]
          · simp [isErrorEv, List.filter_append, filter_isErrorEv_map_content]

theorem chat_stream_shape_witness :
    (chatPOST wChatEnv).head? = some (ChatEv.context [])
    ∧ ((chatPOST wChatEnv).filter isContextEv).length = 1
    ∧ (chatPOST wChatEnv).filterMap contentOf
        = (wChatEnv.chunks.filterMap id).filter (fun d => d ≠ []) :=
  (chat_stream_shape wChatEnv []).1 rfl rfl

theorem jsRound100_le_succ (k total : Nat) :
    jsRound100 k total ≤ jsRound100 (k + 1) total :=
  Nat.div_le_div_right (by omega)

theorem jsRound100_self (n : Nat) (h : 1 ≤ n) : jsRound100 n n = 100 := by
  unfold jsRound100
  exact Nat.div_eq_of_lt_le (by omega) (by omega)

theorem jsRound100_le_100 (k n : Nat) (hk : k ≤ n) : jsRound100 k n ≤ 100 := by
  rcases Nat.eq_zero_or_pos n with hn | hn
  · subst hn
    simp [jsRound100]
  · calc jsRound100 k n ≤ jsRound100 n n := Nat.div_le_div_right (by omega)
    _ = 100 := jsRound100_self n hn

theorem processDocument_snd (a : Except Str (List Int)) (b : Bool) (c : Nat)
    (d : UDoc) (e : Str) (f : List Record) :
    (processDocument a b c d e f).2 = Except.ok () := by
  cases a with
  | error m => rfl
  | ok emb => by_cases hb : b <;> simp [processDocument, hb]

/-- The events of the second-pass loop depend only on the document count, the
processed count and the total: every document, failing or not, increments the
count and emits one percentage. -/
theorem processDocsLoop_events (e : Nat → Except Str (List Int)) (i : Nat → Bool)
    (n : Nat → Nat) (userId : Str) (total : Nat) :
    ∀ (docs : List UDoc) (idx count : Nat) (store : List Record),
      (processDocsLoop e i n userId total docs idx count store).2 =
        (List.range docs.length).map
          (fun j => IngestEv.percentage (jsRound100 (count + j + 1) total)) := by
  intro docs
  induction docs with
  | nil => intro idx count store; rfl
  | cons d ds ih =>
    intro idx count store
    simp only [processDocsLoop, processDocument_snd]
    rw [ih]
    simp only [List.length_cons, List.range_succ_eq_map, List.map_cons, List.map_map]
    congr 1
    refine List.map_congr_left ?_
    intro j _
    simp only [Function.comp_apply]
    have harith : count + 1 + j + 1 = count + j.succ + 1 := by omega
    rw [harith]

/-- The second-pass loop events from a zero counter: one percentage per
document, in order. -/
theorem processDocsLoop_events0 (e : Nat → Except Str (List Int)) (i : Nat → Bool)
    (n : Nat → Nat) (userId : Str) (total : Nat) (docs : List UDoc)
    (store : List Record) :
    (processDocsLoop e i n userId total docs 0 0 store).2 =
      ((List.range docs.length).map (fun j => jsRound100 (j + 1) total)).map
        IngestEv.percentage := by
  rw [processDocsLoop_events, List.map_map]
  refine List.map_congr_left ?_
  intro j _
  simp only [Function.comp_apply]
  have harith : 0 + j + 1 = j + 1 := by omega
  rw [harith]

/-- C10: a per-document embedding or insertion failure is swallowed inside
processDocument, so the emitted event stream does not depend on the
per-document oracles at all: two runs agreeing on deletion and fetches emit
identical events, the events are exactly one percentage per document of the
second pass, and the ingestion still terminates with the 100-percent event
even when every document fails. -/
theorem per_document_failure_isolated
    (env env' : UrlEnv) (tenv : TextEnv) (url userId userName : Str)
    (store store' : List Record) (elems1 elems2 : List Element)
    (hd : env.deleteErr = env'.deleteErr) (h1 : env.fetch1 = env'.fetch1)
    (h2 : env.fetch2 = env'.fetch2)
    (hd0 : env.deleteErr = none) (hf1 : env.fetch1 = Except.ok elems1)
    (hf2 : env.fetch2 = Except.ok elems2) (hurl : url ≠ []) :
    (processUrlInput env url userId store).2 = (processUrlInput env' url userId store').2
    ∧ (processUrlInput env url userId store).2 =
        Except.ok (((List.range (generateDocumentsFromUrl elems2 url).length).map
          (fun j => jsRound100 (j + 1) (generateDocumentsFromUrl elems1 url).length)).map
            IngestEv.percentage)
    ∧ ((addContextPOST env tenv url true true userName userId store).2).getLast? =
        some (IngestEv.percentage 100) := by
  have he : (processUrlInput env url userId store).2 =
      Except.ok (((List.range (generateDocumentsFromUrl elems2 url).length).map
        (fun j => jsRound100 (j + 1) (generateDocumentsFromUrl elems1 url).length)).map
          IngestEv.percentage) := by
    simp only [processUrlInput, hd0, hf1, hf2]
    rw [processDocsLoop_events0]
  have he' : (processUrlInput env' url userId store').2 =
      Except.ok (((List.range (generateDocumentsFromUrl elems2 url).length).map
        (fun j => jsRound100 (j + 1) (generateDocumentsFromUrl elems1 url).length)).map
          IngestEv.percentage) := by
    simp only [processUrlInput, ← hd, ← h1, ← h2, hd0, hf1, hf2]
    rw [processDocsLoop_events0]
  refine ⟨he.trans he'.symm, he, ?_⟩
  rcases hpu : processUrlInput env url userId store with ⟨s2, r2⟩
  rw [hpu] at he
  simp only at he
  subst he
  simp [addContextPOST, if_neg hurl, hpu, List.getLast?_concat]

theorem per_document_failure_isolated_witness :
    (processUrlInput wUrlEnv (("u").toList) (("me").toList) []).2 =
      (processUrlInput wUrlEnvOk (("u").toList) (("me").toList) []).2
    ∧ ((addContextPOST wUrlEnv cexTextEnv (("u").toList) true true
        (("n").toList) (("me").toList) []).2).getLast? =
        some (IngestEv.percentage 100) :=
  ⟨(per_document_failure_isolated wUrlEnv wUrlEnvOk cexTextEnv
      (("u").toList) (("me").toList) (("n").toList) [] []
      [⟨Tag.title, ("T").toList⟩, ⟨Tag.para, ("a b").toList⟩]
      [⟨Tag.title, ("T").toList⟩, ⟨Tag.para, ("a b").toList⟩]
      rfl rfl rfl rfl rfl rfl (by decide)).1,
   (per_document_failure_isolated wUrlEnv wUrlEnvOk cexTextEnv
      (("u").toList) (("me").toList) (("n").toList) [] []
      [⟨Tag.title, ("T").toList⟩, ⟨Tag.para, ("a b").toList⟩]
      [⟨Tag.title, ("T").toList⟩, ⟨Tag.para, ("a b").toList⟩]
      rfl rfl rfl rfl rfl rfl (by decide)).2.2⟩

theorem percentagesOf_map_percentage (L : List Nat) :
    percentagesOf (L.map IngestEv.percentage) = L := by
  induction L with
  | nil => rfl
  | cons p L ih => simp [percentagesOf] at ih ⊢; exact ih

theorem chain'_progress (n : Nat) :
    List.Chain' (· ≤ ·) ((List.range n).map (fun j => jsRound100 (j + 1) n) ++ [100]) := by
  rw [List.chain'_append]
  refine ⟨?_, List.chain'_singleton _, ?_⟩
  · rw [List.chain'_map]
    cases n with
    | zero => simp
    | succ m =>
      exact (List.chain'_range_succ _ m).mpr (fun k _ => jsRound100_le_succ (k + 1) (m + 1))
  · intro x hx y hy
    simp only [List.head?_cons, Option.mem_def, Option.some.injEq] at hy
    subst hy
    have hx' := List.mem_of_mem_getLast? hx
    simp only [List.mem_map, List.mem_range] at hx'
    obtain ⟨j, hj, rfl⟩ := hx'
    exact jsRound100_le_100 (j + 1) n (by omega)

theorem progress_all_le (n : Nat) :
    ∀ p ∈ (List.range n).map (fun j => jsRound100 (j + 1) n) ++ [100], p ≤ 100 := by
  intro p hp
  rcases List.mem_append.mp hp with h | h
  · simp only [List.mem_map, List.mem_range] at h
    obtain ⟨j, hj, rfl⟩ := h
    exact jsRound100_le_100 (j + 1) n (by omega)
  · simp only [List.mem_singleton] at h
    omega

theorem processUrlInput_deleteErr (env : UrlEnv) (url userId : Str)
    (store : List Record) (m : Str) (hde : env.deleteErr = some m) :
    processUrlInput env url userId store = (store, Except.error m) := by
  simp only [processUrlInput, hde]

theorem processUrlInput_fetchErr (env : UrlEnv) (url userId : Str)
    (store : List Record) (m : Str) (hde : env.deleteErr = none)
    (hfe : env.fetch1 = Except.error m) :
    processUrlInput env url userId store =
      (deleteExistingDocuments url userId store, Except.error m) := by
  simp only [processUrlInput, hde, hfe]

theorem processUrlInput_ok_events (env : UrlEnv) (url userId : Str)
    (store : List Record) (elems1 elems2 : List Element)
    (hde : env.deleteErr = none) (hf1 : env.fetch1 = Except.ok elems1)
    (hf2 : env.fetch2 = Except.ok elems2) :
    (processUrlInput env url userId store).2 =
      Except.ok (((List.range (generateDocumentsFromUrl elems2 url).length).map
        (fun j => jsRound100 (j + 1) (generateDocumentsFromUrl elems1 url).length)).map
          IngestEv.percentage) := by
  simp only [processUrlInput, hde, hf1, hf2]
  rw [processDocsLoop_events0]

theorem addContextPOST_url (env : UrlEnv) (tenv : TextEnv)
    (text userName userId : Str) (store : List Record) (ht : ¬ text = []) :
    (addContextPOST env tenv text true true userName userId store).2 =
      (match (processUrlInput env text userId store).2 with
        | Except.error m => [IngestEv.error m]
        | Except.ok evts => evts ++ [IngestEv.percentage 100]) := by
  rcases h : processUrlInput env text userId store with ⟨s, r⟩
  cases r with
  | error m =>
    simp only [addContextPOST, if_neg ht, h]
    rfl
  | ok evts =>
    simp only [addContextPOST, if_neg ht, h]
    rfl

theorem addContextPOST_text (env : UrlEnv) (tenv : TextEnv) (urlValid : Bool)
    (text userName userId : Str) (store : List Record) (ht : ¬ text = []) :
    (addContextPOST env tenv text false urlValid userName userId store).2 =
      ((List.range (generateDocumentsFromText text userName).length).map
        (fun j => jsRound100 (j + 1) (generateDocumentsFromText text userName).length)).map
          IngestEv.percentage ++ [IngestEv.percentage 100] := by
  simp only [addContextPOST, if_neg ht, processTextInput]
  rw [processDocsLoop_events0]
  rfl

/-- The percentage and terminal properties of the success-path event list. -/
theorem progress_props_of_ok (n : Nat) :
    List.Chain' (· ≤ ·)
      (percentagesOf (((List.range n).map (fun j => jsRound100 (j + 1) n)).map
        IngestEv.percentage ++ [IngestEv.percentage 100]))
    ∧ (∀ p ∈ percentagesOf (((List.range n).map (fun j => jsRound100 (j + 1) n)).map
        IngestEv.percentage ++ [IngestEv.percentage 100]), p ≤ 100)
    ∧ ((((List.range n).map (fun j => jsRound100 (j + 1) n)).map
          IngestEv.percentage ++ [IngestEv.percentage 100]).getLast? =
        some (IngestEv.percentage 100))
    ∧ (∀ m, ¬ IngestEv.error m ∈ (((List.range n).map (fun j => jsRound100 (j + 1) n)).map
        IngestEv.percentage ++ [IngestEv.percentage 100])) := by
  have hperc : percentagesOf (((List.range n).map (fun j => jsRound100 (j + 1) n)).map
      IngestEv.percentage ++ [IngestEv.percentage 100]) =
      (List.range n).map (fun j => jsRound100 (j + 1) n) ++ [100] := by
    have h1 := percentagesOf_map_percentage
      ((List.range n).map (fun j => jsRound100 (j + 1) n))
    rw [percentagesOf] at h1 ⊢
    rw [List.filterMap_append, h1]
    rfl
  rw [hperc]
  refine ⟨chain'_progress n, progress_all_le n, List.getLast?_concat _, ?_⟩
  intro m hm
  rcases List.mem_append.mp hm with h | h
  · simp only [List.mem_map] at h
    obtain ⟨j, _, hj⟩ := h
    exact absurd hj (by simp)
  · simp at h

/-- C7 amended: provided the two generator passes observe the same fetched
content, every ingestion run emits a non-decreasing sequence of integer
percentages bounded by 100, and the stream ends either with the 100-percent
event (and carries no error event) or consists of a single error event. -/
theorem progress_monotone (env : UrlEnv) (tenv : TextEnv) (text : Str)
    (isUrl urlValid : Bool) (userName userId : Str) (store : List Record)
    (hf : env.fetch1 = env.fetch2) :
    List.Chain' (· ≤ ·)
      (percentagesOf (addContextPOST env tenv text isUrl urlValid userName userId store).2)
    ∧ (∀ p ∈ percentagesOf
          (addContextPOST env tenv text isUrl urlValid userName userId store).2, p ≤ 100)
    ∧ (((addContextPOST env tenv text isUrl urlValid userName userId store).2.getLast? =
            some (IngestEv.percentage 100)
          ∧ ∀ m, ¬ IngestEv.error m ∈
              (addContextPOST env tenv text isUrl urlValid userName userId store).2)
        ∨ ∃ m, (addContextPOST env tenv text isUrl urlValid userName userId store).2 =
            [IngestEv.error m]) := by
  by_cases ht : text = []
  · subst ht
    have hev : (addContextPOST env tenv [] isUrl urlValid userName userId store).2 =
        [IngestEv.error (("Either text or URL must be provided").toList)] := by
      simp [addContextPOST]
    rw [hev]
    exact ⟨by simp [percentagesOf], by simp [percentagesOf], Or.inr ⟨_, rfl⟩⟩
  · cases isUrl with
    | false =>
      rw [addContextPOST_text env tenv urlValid text userName userId store ht]
      obtain ⟨hc, hb, hl, he⟩ :=
        progress_props_of_ok (generateDocumentsFromText text userName).length
      exact ⟨hc, hb, Or.inl ⟨hl, he⟩⟩
    | true =>
      cases urlValid with
      | false =>
        have hev : (addContextPOST env tenv text true false userName userId store).2 =
            [IngestEv.error (("Invalid URL provided").toList)] := by
          simp [addContextPOST, if_neg ht]
        rw [hev]
        exact ⟨by simp [percentagesOf], by simp [percentagesOf], Or.inr ⟨_, rfl⟩⟩
      | true =>
        rw [addContextPOST_url env tenv text userName userId store ht]
        cases hde : env.deleteErr with
        | some m =>
          rw [(processUrlInput_deleteErr env text userId store m hde :
            processUrlInput env text userId store = _)]
          exact ⟨by simp [percentagesOf], by simp [percentagesOf], Or.inr ⟨m, rfl⟩⟩
        | none =>
          cases hfe : env.fetch1 with
          | error m =>
            rw [(processUrlInput_fetchErr env text userId store m hde hfe :
              processUrlInput env text userId store = _)]
            exact ⟨by simp [percentagesOf], by simp [percentagesOf], Or.inr ⟨m, rfl⟩⟩
          | ok elems =>
            have hfe2 : env.fetch2 = Except.ok elems := by rw [← hf, hfe]
            rw [processUrlInput_ok_events env text userId store elems elems hde hfe hfe2]
            obtain ⟨hc, hb, hl, he⟩ :=
              progress_props_of_ok (generateDocumentsFromUrl elems text).length
            exact ⟨hc, hb, Or.inl ⟨hl, he⟩⟩

theorem progress_monotone_witness :
    List.Chain' (· ≤ ·)
      (percentagesOf (addContextPOST wUrlEnv cexTextEnv (("u").toList) true true
        (("n").toList) (("me").toList) []).2)
    ∧ (∀ p ∈ percentagesOf (addContextPOST wUrlEnv cexTextEnv (("u").toList) true true
        (("n").toList) (("me").toList) []).2, p ≤ 100)
    ∧ (((addContextPOST wUrlEnv cexTextEnv (("u").toList) true true
          (("n").toList) (("me").toList) []).2.getLast? =
            some (IngestEv.percentage 100)
          ∧ ∀ m, ¬ IngestEv.error m ∈
              (addContextPOST wUrlEnv cexTextEnv (("u").toList) true true
                (("n").toList) (("me").toList) []).2)
        ∨ ∃ m, (addContextPOST wUrlEnv cexTextEnv (("u").toList) true true
            (("n").toList) (("me").toList) []).2 = [IngestEv.error m]) :=
  progress_monotone wUrlEnv cexTextEnv (("u").toList) true true
    (("n").toList) (("me").toList) [] rfl

/-! ### Facts about jsTrim, wordsOf, splitOnChar and lastSpaceIdx -/

theorem dropWhile_head_false (p : Char → Bool) :
    ∀ (l : Str) (c : Char), (l.dropWhile p).head? = some c → p c = false := by
  intro l
  induction l with
  | nil => intro c h; simp at h
  | cons d t ih =>
    intro c h
    by_cases hd : p d
    · rw [List.dropWhile_cons_of_pos hd] at h
      exact ih c h
    · rw [List.dropWhile_cons_of_neg hd] at h
      simp only [List.head?_cons, Option.some.injEq] at h
      subst h
      exact Bool.eq_false_iff.mpr hd

theorem length_dropWhile_le (p : Char → Bool) (l : Str) :
    (l.dropWhile p).length ≤ l.length :=
  (List.dropWhile_sublist p).length_le

theorem jsTrim_length_le (s : Str) : (jsTrim s).length ≤ s.length := by
  unfold jsTrim
  calc ((s.dropWhile isWsB).reverse.dropWhile isWsB).reverse.length
      = ((s.dropWhile isWsB).reverse.dropWhile isWsB).length := List.length_reverse _
    _ ≤ (s.dropWhile isWsB).reverse.length := length_dropWhile_le _ _
    _ = (s.dropWhile isWsB).length := List.length_reverse _
    _ ≤ s.length := length_dropWhile_le _ _

/-- The string splits as leading whitespace, its trim, and trailing
whitespace. -/
theorem jsTrim_decomposition (s : Str) :
    s = s.takeWhile isWsB ++ jsTrim s ++
      ((s.dropWhile isWsB).reverse.takeWhile isWsB).reverse
    ∧ (∀ c ∈ s.takeWhile isWsB, isWsB c = true)
    ∧ (∀ c ∈ ((s.dropWhile isWsB).reverse.takeWhile isWsB).reverse, isWsB c = true) := by
  refine ⟨?_, fun c hc => List.mem_takeWhile_imp hc, fun c hc => ?_⟩
  · conv_lhs => rw [← List.takeWhile_append_dropWhile isWsB s]
    rw [List.append_assoc]
    congr 1
    conv_lhs => rw [← List.reverse_reverse (s.dropWhile isWsB),
      ← List.takeWhile_append_dropWhile isWsB (s.dropWhile isWsB).reverse]
    rw [List.reverse_append]
    rfl
  · rw [List.mem_reverse] at hc
    exact List.mem_takeWhile_imp hc

theorem dropWhile_decomposition (p : Char → Bool) (l : Str) :
    l.dropWhile p =
      ((l.dropWhile p).reverse.dropWhile p).reverse ++
        ((l.dropWhile p).reverse.takeWhile p).reverse := by
  conv_lhs => rw [← List.reverse_reverse (l.dropWhile p),
    ← List.takeWhile_append_dropWhile p (l.dropWhile p).reverse]
  rw [List.reverse_append]

theorem jsTrim_head_not_ws (s : Str) (c : Char) (h : (jsTrim s).head? = some c) :
    isWsB c = false := by
  have hu : s.dropWhile isWsB =
      jsTrim s ++ ((s.dropWhile isWsB).reverse.takeWhile isWsB).reverse :=
    dropWhile_decomposition isWsB s
  have hh : (s.dropWhile isWsB).head? = some c := by
    rw [hu]
    cases hj : jsTrim s with
    | nil => rw [hj] at h; simp at h
    | cons a t =>
      rw [hj] at h
      simp only [List.head?_cons, Option.some.injEq] at h
      subst h
      rfl
  exact dropWhile_head_false isWsB s c hh

theorem jsTrim_getLast_not_ws (s : Str) (c : Char)
    (h : (jsTrim s).getLast? = some c) : isWsB c = false := by
  unfold jsTrim at h
  rw [List.getLast?_reverse] at h
  exact dropWhile_head_false isWsB _ c h

theorem dropWhile_eq_self_of_head (p : Char → Bool) (l : Str)
    (h : ∀ c, l.head? = some c → p c = false) : l.dropWhile p = l := by
  cases l with
  | nil => rfl
  | cons d t =>
    have := h d rfl
    rw [List.dropWhile_cons_of_neg (by simp [this])]

theorem jsTrim_idem (s : Str) : jsTrim (jsTrim s) = jsTrim s := by
  have h1 : (jsTrim s).dropWhile isWsB = jsTrim s :=
    dropWhile_eq_self_of_head isWsB _ (fun c hc => jsTrim_head_not_ws s c hc)
  have h2 : (jsTrim s).reverse.dropWhile isWsB = (jsTrim s).reverse := by
    refine dropWhile_eq_self_of_head isWsB _ (fun c hc => ?_)
    rw [List.head?_reverse] at hc
    exact jsTrim_getLast_not_ws s c hc
  show (((jsTrim s).dropWhile isWsB).reverse.dropWhile isWsB).reverse = jsTrim s
  rw [h1, h2, List.reverse_reverse]

theorem jsTrim_length_lt_of_last_ws (s : Str) (c : Char)
    (hlast : s.getLast? = some c) (hws : isWsB c = true) :
    (jsTrim s).length < s.length := by
  have hne : s ≠ [] := by rintro rfl; simp at hlast
  cases hs : s with
  | nil => exact absurd hs hne
  | cons d t =>
    subst hs
    by_cases hd : isWsB d
    · have h1 : (jsTrim (d :: t)).length ≤ ((d :: t).dropWhile isWsB).length := by
        unfold jsTrim
        rw [List.length_reverse]
        calc (((d :: t).dropWhile isWsB).reverse.dropWhile isWsB).length
            ≤ ((d :: t).dropWhile isWsB).reverse.length := length_dropWhile_le _ _
          _ = ((d :: t).dropWhile isWsB).length := List.length_reverse _
      rw [List.dropWhile_cons_of_pos hd] at h1
      calc (jsTrim (d :: t)).length ≤ (t.dropWhile isWsB).length := h1
        _ ≤ t.length := length_dropWhile_le _ _
        _ < (d :: t).length := by simp
    · have hu : (d :: t).dropWhile isWsB = d :: t :=
        List.dropWhile_cons_of_neg (by simp [hd])
      have hlen : (jsTrim (d :: t)).length =
          ((d :: t).reverse.dropWhile isWsB).length := by
        unfold jsTrim
        rw [hu, List.length_reverse]
      rcases hrev : (d :: t).reverse with _ | ⟨e, r⟩
      · exact absurd (List.reverse_eq_nil_iff.mp hrev) hne
      · have hce : e = c := by
          have : (d :: t).reverse.head? = some c := by
            rw [List.head?_reverse]
            exact hlast
          rw [hrev] at this
          simpa using this
        subst hce
        rw [hlen, hrev, List.dropWhile_cons_of_pos hws]
        calc (r.dropWhile isWsB).length ≤ r.length := length_dropWhile_le _ _
          _ < (e :: r).length := by simp
          _ = (d :: t).length := by rw [← hrev, List.length_reverse]

theorem takeWhile_append_of_all (p : Char → Bool) (a b : Str)
    (h : ∀ x ∈ a, p x = true) :
    (a ++ b).takeWhile p = a ++ b.takeWhile p
    ∧ (a ++ b).dropWhile p = b.dropWhile p := by
  induction a with
  | nil => exact ⟨rfl, rfl⟩
  | cons d a' ih =>
    have hd := h d (List.mem_cons_self d a')
    have ih' := ih (fun x hx => h x (List.mem_cons_of_mem d hx))
    constructor
    · rw [List.cons_append, List.takeWhile_cons_of_pos hd, ih'.1, List.cons_append]
    · rw [List.cons_append, List.dropWhile_cons_of_pos hd, ih'.2]

theorem takeWhile_append_of_stop (p : Char → Bool) (a b : Str)
    (h : ¬ ∀ x ∈ a, p x = true) :
    (a ++ b).takeWhile p = a.takeWhile p
    ∧ (a ++ b).dropWhile p = a.dropWhile p ++ b := by
  induction a with
  | nil => exact absurd (by simp) h
  | cons d a' ih =>
    by_cases hd : p d
    · have ha' : ¬ ∀ x ∈ a', p x = true := by
        intro hall
        exact h (fun x hx => by
          rcases List.mem_cons.mp hx with rfl | hx'
          · exact hd
          · exact hall x hx')
      have ih' := ih ha'
      constructor
      · rw [List.cons_append, List.takeWhile_cons_of_pos hd, ih'.1,
          List.takeWhile_cons_of_pos hd]
      · rw [List.cons_append, List.dropWhile_cons_of_pos hd, ih'.2,
          List.dropWhile_cons_of_pos hd]
    · constructor
      · rw [List.cons_append, List.takeWhile_cons_of_neg hd,
          List.takeWhile_cons_of_neg hd]
      · rw [List.cons_append, List.dropWhile_cons_of_neg hd,
          List.dropWhile_cons_of_neg hd, List.cons_append]

theorem takeWhile_all_self (p : Char → Bool) (a : Str) (h : ∀ x ∈ a, p x = true) :
    a.takeWhile p = a ∧ a.dropWhile p = [] := by
  have := takeWhile_append_of_all p a [] h
  simpa using this

theorem wordsOf_cons_ws (c : Char) (s : Str) (h : isWsB c = true) :
    wordsOf (c :: s) = wordsOf s := by
  simp [wordsOf, h]

theorem wordsOf_cons_nonws : ∀ (s : Str) (c : Char), isWsB c = false →
    wordsOf (c :: s) = (c :: s.takeWhile (fun d => !isWsB d)) ::
      wordsOf (s.dropWhile (fun d => !isWsB d)) := by
  intro s
  induction s with
  | nil => intro c hc; simp [wordsOf, hc]
  | cons d t ih =>
    intro c hc
    by_cases hd : isWsB d = true
    · have h1 : wordsOf (c :: d :: t) = [c] :: wordsOf (d :: t) := by
        simp [wordsOf, hc, hd]
      rw [h1, List.takeWhile_cons_of_neg (by simp [hd]),
        List.dropWhile_cons_of_neg (by simp [hd])]
    · have hd' : isWsB d = false := by revert hd; cases isWsB d <;> simp
      have h1 : wordsOf (c :: d :: t) =
          (match wordsOf (d :: t) with
            | [] => [[c]]
            | w :: ws => (c :: w) :: ws) := by
        simp [wordsOf, hc, hd']
      rw [h1, ih d hd', List.takeWhile_cons_of_pos (by simp [hd']),
        List.dropWhile_cons_of_pos (by simp [hd'])]

theorem wordsOf_all_ws (s : Str) (h : ∀ c ∈ s, isWsB c = true) : wordsOf s = [] := by
  induction s with
  | nil => rfl
  | cons c t ih =>
    rw [wordsOf_cons_ws c t (h c (List.mem_cons_self c t))]
    exact ih (fun x hx => h x (List.mem_cons_of_mem c hx))

theorem wordsOf_all_nonws (s : Str) (hne : s ≠ []) (h : ∀ c ∈ s, isWsB c = false) :
    wordsOf s = [s] := by
  cases s with
  | nil => exact absurd rfl hne
  | cons c t =>
    rw [wordsOf_cons_nonws t c (h c (List.mem_cons_self c t))]
    have hall : ∀ x ∈ t, (fun d => !isWsB d) x = true := by
      intro x hx
      simp [h x (List.mem_cons_of_mem c hx)]
    rw [(takeWhile_all_self _ t hall).1, (takeWhile_all_self _ t hall).2]
    rfl

theorem wordsOf_append_ws_aux : ∀ (n : Nat) (a : Str), a.length ≤ n →
    ∀ (c : Char) (b : Str), isWsB c = true →
      wordsOf (a ++ c :: b) = wordsOf a ++ wordsOf b := by
  intro n
  induction n with
  | zero =>
    intro a ha c b hc
    have : a = [] := List.length_eq_zero.mp (Nat.le_zero.mp ha)
    subst this
    rw [List.nil_append, wordsOf_cons_ws c b hc]
    rfl
  | succ n ih =>
    intro a ha c b hc
    cases a with
    | nil =>
      rw [List.nil_append, wordsOf_cons_ws c b hc]
      rfl
    | cons d a' =>
      have ha' : a'.length ≤ n := by
        simp only [List.length_cons] at ha
        omega
      by_cases hd : isWsB d = true
      · rw [List.cons_append, wordsOf_cons_ws d _ hd, wordsOf_cons_ws d a' hd]
        exact ih a' ha' c b hc
      · have hd' : isWsB d = false := by revert hd; cases isWsB d <;> simp
        rw [List.cons_append, wordsOf_cons_nonws _ d hd', wordsOf_cons_nonws a' d hd']
        by_cases hall : ∀ x ∈ a', (fun e => !isWsB e) x = true
        · have h1 := takeWhile_append_of_all (fun e => !isWsB e) a' (c :: b) hall
          rw [h1.1, h1.2, List.takeWhile_cons_of_neg (by simp [hc]),
            List.dropWhile_cons_of_neg (by simp [hc]),
            (takeWhile_all_self _ a' hall).1, (takeWhile_all_self _ a' hall).2,
            wordsOf_cons_ws c b hc]
          simp [wordsOf]
        · have h1 := takeWhile_append_of_stop (fun e => !isWsB e) a' (c :: b) hall
          rw [h1.1, h1.2]
          have hlen : (a'.dropWhile (fun e => !isWsB e)).length ≤ n :=
            le_trans (length_dropWhile_le _ a') ha'
          rw [ih (a'.dropWhile (fun e => !isWsB e)) hlen c b hc]
          rfl

theorem wordsOf_append_ws (a : Str) (c : Char) (b : Str) (hc : isWsB c = true) :
    wordsOf (a ++ c :: b) = wordsOf a ++ wordsOf b :=
  wordsOf_append_ws_aux a.length a (le_refl _) c b hc

theorem wordsOf_append_all_ws_right (s t : Str) (h : ∀ c ∈ t, isWsB c = true) :
    wordsOf (s ++ t) = wordsOf s := by
  cases t with
  | nil => rw [List.append_nil]
  | cons c t' =>
    rw [wordsOf_append_ws s c t' (h c (List.mem_cons_self c t')),
      wordsOf_all_ws t' (fun x hx => h x (List.mem_cons_of_mem c hx)),
      List.append_nil]

theorem wordsOf_append_all_ws_left (s t : Str) (h : ∀ c ∈ s, isWsB c = true) :
    wordsOf (s ++ t) = wordsOf t := by
  induction s with
  | nil => rfl
  | cons c s' ih =>
    rw [List.cons_append, wordsOf_cons_ws c _ (h c (List.mem_cons_self c s'))]
    exact ih (fun x hx => h x (List.mem_cons_of_mem c hx))

theorem wordsOf_jsTrim (s : Str) : wordsOf (jsTrim s) = wordsOf s := by
  obtain ⟨hdec, hlead, htrail⟩ := jsTrim_decomposition s
  conv_rhs => rw [hdec]
  rw [List.append_assoc]
  rw [wordsOf_append_all_ws_left _ _ hlead]
  rw [wordsOf_append_all_ws_right _ _ htrail]

theorem wordsOf_mem_aux : ∀ (n : Nat) (s : Str), s.length ≤ n → ∀ w ∈ wordsOf s,
    w ≠ [] ∧ ∀ c ∈ w, isWsB c = false := by
  intro n
  induction n with
  | zero =>
    intro s hs w hw
    have : s = [] := List.length_eq_zero.mp (Nat.le_zero.mp hs)
    subst this
    simp [wordsOf] at hw
  | succ n ih =>
    intro s hs w hw
    cases s with
    | nil => simp [wordsOf] at hw
    | cons c t =>
      have ht : t.length ≤ n := by
        simp only [List.length_cons] at hs
        omega
      by_cases hc : isWsB c = true
      · rw [wordsOf_cons_ws c t hc] at hw
        exact ih t ht w hw
      · have hc' : isWsB c = false := by revert hc; cases isWsB c <;> simp
        rw [wordsOf_cons_nonws t c hc'] at hw
        rcases List.mem_cons.mp hw with rfl | hw'
        · refine ⟨by simp, ?_⟩
          intro x hx
          rcases List.mem_cons.mp hx with rfl | hx'
          · exact hc'
          · have := List.mem_takeWhile_imp hx'
            simpa using this
        · exact ih (t.dropWhile (fun d => !isWsB d))
            (le_trans (length_dropWhile_le _ t) ht) w hw'

theorem wordsOf_mem (s : Str) (w : Str) (hw : w ∈ wordsOf s) :
    w ≠ [] ∧ ∀ c ∈ w, isWsB c = false :=
  wordsOf_mem_aux s.length s (le_refl _) w hw

/-- Splitting a word occurrence across an append junction: a word of the
concatenation lies in the left part, lies in the right part, or straddles the
junction, its two halves ending with the last character of the left part and
starting with the first character of the right part. -/
theorem wordsOf_append_cases_aux : ∀ (n : Nat) (a : Str), a.length ≤ n →
    ∀ (b : Str) (e : Char), b.head? = some e → isWsB e = false →
    ∀ w ∈ wordsOf (a ++ b),
      w ∈ wordsOf a ∨ w ∈ wordsOf b ∨
        ∃ (l : Char) (x y : Str), a.getLast? = some l ∧ isWsB l = false ∧
          w = x ++ y ∧ x ≠ [] ∧ y ≠ [] ∧ x.getLast? = some l ∧ y.head? = some e := by
  intro n
  induction n with
  | zero =>
    intro a ha b e hb he w hw
    have : a = [] := List.length_eq_zero.mp (Nat.le_zero.mp ha)
    subst this
    exact Or.inr (Or.inl hw)
  | succ n ih =>
    intro a ha b e hb he w hw
    cases a with
    | nil => exact Or.inr (Or.inl hw)
    | cons c a' =>
      have ha' : a'.length ≤ n := by
        simp only [List.length_cons] at ha
        omega
      by_cases hc : isWsB c = true
      · rw [List.cons_append, wordsOf_cons_ws c _ hc] at hw
        rcases ih a' ha' b e hb he w hw with h | h | h
        · left
          rwa [wordsOf_cons_ws c a' hc]
        · exact Or.inr (Or.inl h)
        · obtain ⟨l, x, y, hl, hlws, hxy, hx, hy, hxl, hyh⟩ := h
          refine Or.inr (Or.inr ⟨l, x, y, ?_, hlws, hxy, hx, hy, hxl, hyh⟩)
          cases a' with
          | nil => simp at hl
          | cons d t => rwa [List.getLast?_cons_cons]
      · have hc' : isWsB c = false := by revert hc; cases isWsB c <;> simp
        rw [List.cons_append, wordsOf_cons_nonws _ c hc'] at hw
        by_cases hall : ∀ x ∈ a', (fun d => !isWsB d) x = true
        · have h1 := takeWhile_append_of_all (fun d => !isWsB d) a' b hall
          rw [h1.1, h1.2] at hw
          cases b with
          | nil => simp at hb
          | cons e0 b' =>
            have he0 : e0 = e := by simpa using hb
            rw [List.takeWhile_cons_of_pos (by simp [he0, he]),
              List.dropWhile_cons_of_pos (by simp [he0, he])] at hw
            rcases List.mem_cons.mp hw with rfl | hw'
            · have hane : (c :: a') ≠ ([] : Str) := by simp
              refine Or.inr (Or.inr ⟨(c :: a').getLast hane, c :: a',
                e0 :: b'.takeWhile (fun d => !isWsB d),
                List.getLast?_eq_getLast _ hane, ?_, by simp, by simp, by simp,
                List.getLast?_eq_getLast _ hane, by simp [he0]⟩)
              have hmem := List.getLast_mem hane
              rcases List.mem_cons.mp hmem with hh | hh
              · rw [hh]
                exact hc'
              · have := hall _ hh
                simpa using this
            · right
              left
              rw [wordsOf_cons_nonws b' e0 (by rw [he0]; exact he)]
              exact List.mem_cons_of_mem _ hw'
        · have h1 := takeWhile_append_of_stop (fun d => !isWsB d) a' b hall
          rw [h1.1, h1.2] at hw
          have hdne : a'.dropWhile (fun d => !isWsB d) ≠ [] := by
            intro hnil
            exact hall (List.dropWhile_eq_nil_iff.mp hnil)
          rcases List.mem_cons.mp hw with rfl | hw'
          · left
            rw [wordsOf_cons_nonws a' c hc']
            exact List.mem_cons_self _ _
          · have hlen : (a'.dropWhile (fun d => !isWsB d)).length ≤ n :=
              le_trans (length_dropWhile_le _ a') ha'
            rcases ih _ hlen b e hb he w hw' with h | h | h
            · left
              rw [wordsOf_cons_nonws a' c hc']
              exact List.mem_cons_of_mem _ h
            · exact Or.inr (Or.inl h)
            · obtain ⟨l, x, y, hl, hlws, hxy, hx, hy, hxl, hyh⟩ := h
              refine Or.inr (Or.inr ⟨l, x, y, ?_, hlws, hxy, hx, hy, hxl, hyh⟩)
              have ha'ne : a' ≠ [] := by
                intro hnil
                subst hnil
                simp at hdne
              have hsplit : a' = a'.takeWhile (fun d => !isWsB d) ++
                  a'.dropWhile (fun d => !isWsB d) :=
                (List.takeWhile_append_dropWhile _ a').symm
              have h2 : a'.getLast? = some l := by
                conv_lhs => rw [hsplit]
                rwa [List.getLast?_append_of_ne_nil _ hdne]
              cases a' with
              | nil => exact absurd rfl ha'ne
              | cons d t => rwa [List.getLast?_cons_cons]

theorem splitOnChar_ne_nil (sep : Char) : ∀ s : Str, splitOnChar sep s ≠ [] := by
  intro s
  cases s with
  | nil => simp [splitOnChar]
  | cons c t =>
    by_cases h : c = sep
    · simp [splitOnChar, h]
    · simp only [splitOnChar, if_neg h]
      rcases hsp : splitOnChar sep t with _ | ⟨w, ws⟩ <;> simp

theorem splitOnChar_no_sep (sep : Char) : ∀ s : Str, ¬ sep ∈ s →
    splitOnChar sep s = [s] := by
  intro s
  induction s with
  | nil => intro _; rfl
  | cons c t ih =>
    intro h
    have hc : ¬ c = sep := fun he => h (by rw [he]; exact List.mem_cons_self sep t)
    have ht := ih (fun hm => h (List.mem_cons_of_mem c hm))
    simp only [splitOnChar, if_neg hc, ht]

theorem splitOnChar_mem_no_sep (sep : Char) : ∀ (s w : Str),
    w ∈ splitOnChar sep s → ¬ sep ∈ w := by
  intro s
  induction s with
  | nil =>
    intro w hw
    simp only [splitOnChar, List.mem_singleton] at hw
    subst hw
    simp
  | cons c t ih =>
    intro w hw
    by_cases hc : c = sep
    · rw [splitOnChar, if_pos hc] at hw
      rcases List.mem_cons.mp hw with rfl | hw'
      · simp
      · exact ih w hw'
    · rw [splitOnChar, if_neg hc] at hw
      rcases hsp : splitOnChar sep t with _ | ⟨w', ws⟩
      · exact absurd hsp (splitOnChar_ne_nil sep t)
      · rw [hsp] at hw
        rcases List.mem_cons.mp hw with rfl | hw'
        · intro hmem
          rcases List.mem_cons.mp hmem with hh | hh
          · exact hc hh.symm
          · exact ih w' (hsp ▸ List.mem_cons_self w' ws) hh
        · exact ih w (hsp ▸ List.mem_cons_of_mem w' hw')

theorem splitOnChar_mem_length (sep : Char) : ∀ (s w : Str),
    w ∈ splitOnChar sep s → w.length ≤ s.length := by
  intro s
  induction s with
  | nil =>
    intro w hw
    simp only [splitOnChar, List.mem_singleton] at hw
    subst hw
    simp
  | cons c t ih =>
    intro w hw
    by_cases hc : c = sep
    · rw [splitOnChar, if_pos hc] at hw
      rcases List.mem_cons.mp hw with rfl | hw'
      · simp
      · exact le_trans (ih w hw') (by simp)
    · rw [splitOnChar, if_neg hc] at hw
      rcases hsp : splitOnChar sep t with _ | ⟨w', ws⟩
      · exact absurd hsp (splitOnChar_ne_nil sep t)
      · rw [hsp] at hw
        rcases List.mem_cons.mp hw with rfl | hw'
        · have := ih w' (hsp ▸ List.mem_cons_self w' ws)
          simp only [List.length_cons]
          omega
        · exact le_trans (ih w (hsp ▸ List.mem_cons_of_mem w' hw')) (by simp)

/-- Splitting a concatenation: all parts of the left string except its last,
then the last left part glued onto the first right part, then the remaining
right parts. -/
theorem splitOnChar_append (sep : Char) : ∀ (a b : Str),
    splitOnChar sep (a ++ b) = (splitOnChar sep a).dropLast ++
      consHead ((splitOnChar sep a).getLastD []) (splitOnChar sep b) := by
  intro a
  induction a with
  | nil =>
    intro b
    rcases hsp : splitOnChar sep b with _ | ⟨y, ys⟩
    · exact absurd hsp (splitOnChar_ne_nil sep b)
    · simp [splitOnChar, consHead, hsp]
  | cons d a' ih =>
    intro b
    rcases hsp' : splitOnChar sep a' with _ | ⟨w', ws'⟩
    · exact absurd hsp' (splitOnChar_ne_nil sep a')
    rcases hspb : splitOnChar sep b with _ | ⟨y, ys⟩
    · exact absurd hspb (splitOnChar_ne_nil sep b)
    by_cases hd : d = sep
    · rw [List.cons_append]
      simp only [splitOnChar, if_pos hd]
      rw [ih b, hsp', hspb]
      simp [consHead, List.getLastD]
    · rw [List.cons_append]
      simp only [splitOnChar, if_neg hd]
      rw [ih b, hsp', hspb]
      cases ws' with
      | nil => simp [consHead, List.getLastD, List.append_assoc]
      | cons v vs => simp [consHead, List.getLastD]

theorem consHead_nil_of_ne (ps : List Str) (h : ps ≠ []) : consHead [] ps = ps := by
  cases ps with
  | nil => exact absurd rfl h
  | cons y ys => simp [consHead]

theorem getLastD_concat (x d : Str) : ∀ l : List Str, (l ++ [x]).getLastD d = x := by
  intro l
  induction l generalizing d with
  | nil => rfl
  | cons v t ih => rw [List.cons_append, List.getLastD_cons, ih]

theorem dropLast_append_getLastD (x : Str) : ∀ l : List Str, l ≠ [] →
    l.dropLast ++ [l.getLastD x] = l := by
  intro l
  induction l generalizing x with
  | nil => intro h; exact absurd rfl h
  | cons v t ih =>
    intro _
    cases t with
    | nil => rfl
    | cons u t' =>
      rw [List.getLastD_cons]
      have := ih (x := v) (by simp)
      rw [show (v :: u :: t').dropLast = v :: (u :: t').dropLast from rfl,
        List.cons_append, this]

theorem splitOnChar_concat_sep (sep : Char) (a : Str) :
    splitOnChar sep (a ++ [sep]) = splitOnChar sep a ++ [[]] := by
  rw [splitOnChar_append]
  have h1 : splitOnChar sep [sep] = [[], []] := by simp [splitOnChar]
  rw [h1]
  show (splitOnChar sep a).dropLast ++
    [((splitOnChar sep a).getLastD []) ++ [], []] = _
  rw [List.append_nil]
  rw [show (splitOnChar sep a).dropLast ++ [(splitOnChar sep a).getLastD [], []] =
    ((splitOnChar sep a).dropLast ++ [(splitOnChar sep a).getLastD []]) ++ [[]] from by
      simp]
  rw [dropLast_append_getLastD [] _ (splitOnChar_ne_nil sep a)]

theorem splitOnChar_mem_append (sep : Char) (a t : Str)
    (h : a = [] ∨ a.getLast? = some sep) :
    ∀ w ∈ splitOnChar sep (a ++ t), w ∈ splitOnChar sep a ∨ w ∈ splitOnChar sep t := by
  rcases h with rfl | hlast
  · intro w hw
    exact Or.inr hw
  · have hne : a ≠ [] := by rintro rfl; simp at hlast
    obtain ⟨a0, rfl⟩ : ∃ a0, a = a0 ++ [sep] := by
      rw [List.getLast?_eq_getLast a hne, Option.some.injEq] at hlast
      refine ⟨a.dropLast, ?_⟩
      conv_lhs => rw [← List.dropLast_append_getLast hne]
      rw [hlast]
    intro w hw
    rw [splitOnChar_append] at hw
    rw [splitOnChar_concat_sep] at hw
    rw [getLastD_concat] at hw
    rw [consHead_nil_of_ne _ (splitOnChar_ne_nil sep t)] at hw
    rcases List.mem_append.mp hw with h | h
    · left
      rw [splitOnChar_concat_sep]
      rw [List.dropLast_concat] at h
      exact List.mem_append.mpr (Or.inl h)
    · exact Or.inr h

theorem splitOnChar_cons_word (sep : Char) (w t : Str) (hw : ¬ sep ∈ w) :
    splitOnChar sep (w ++ sep :: t) = w :: splitOnChar sep t := by
  rw [splitOnChar_append, splitOnChar_no_sep sep w hw]
  show [] ++ consHead w (splitOnChar sep (sep :: t)) = _
  rw [List.nil_append]
  have h1 : splitOnChar sep (sep :: t) = [] :: splitOnChar sep t := by
    simp [splitOnChar]
  rw [h1]
  rcases hsp : splitOnChar sep t with _ | ⟨y, ys⟩
  · exact absurd hsp (splitOnChar_ne_nil sep t)
  · simp [consHead]

theorem splitOnChar_length_lt_two (sep : Char) (s : Str) :
    (splitOnChar sep s).length < 2 ↔ ¬ sep ∈ s := by
  constructor
  · intro h hmem
    revert h
    induction s with
    | nil => simp at hmem
    | cons c t ih =>
      intro h
      by_cases hc : c = sep
      · rw [splitOnChar, if_pos hc] at h
        have := splitOnChar_ne_nil sep t
        simp only [List.length_cons] at h
        have : 1 ≤ (splitOnChar sep t).length := by
          cases hsp : splitOnChar sep t with
          | nil => exact absurd hsp (splitOnChar_ne_nil sep t)
          | cons y ys => simp
        omega
      · have hmem' : sep ∈ t := by
          rcases List.mem_cons.mp hmem with hh | hh
          · exact absurd hh.symm hc
          · exact hh
        rw [splitOnChar, if_neg hc] at h
        rcases hsp : splitOnChar sep t with _ | ⟨y, ys⟩
        · exact absurd hsp (splitOnChar_ne_nil sep t)
        · rw [hsp] at h
          simp only [List.length_cons] at h
          refine ih hmem' ?_
          rw [hsp]
          simpa using h
  · intro h
    rw [splitOnChar_no_sep sep s h]
    simp

theorem lastSpaceIdx_some (s : Str) : ∀ i, lastSpaceIdx s = some i →
    s.get? i = some ' ' := by
  induction s with
  | nil => intro i h; simp [lastSpaceIdx] at h
  | cons c t ih =>
    intro i h
    rw [lastSpaceIdx] at h
    rcases ht : lastSpaceIdx t with _ | j
    · rw [ht] at h
      by_cases hc : c = ' '
      · simp only [if_pos hc] at h
        cases h
        simp [hc]
      · simp [hc] at h
    · rw [ht] at h
      simp only [Option.some.injEq] at h
      subst h
      simpa using ih j ht

theorem lastSpaceIdx_none (s : Str) (h : lastSpaceIdx s = none) : ¬ ' ' ∈ s := by
  induction s with
  | nil => simp
  | cons c t ih =>
    rw [lastSpaceIdx] at h
    rcases ht : lastSpaceIdx t with _ | j
    · rw [ht] at h
      by_cases hc : c = ' '
      · simp [hc] at h
      · intro hmem
        rcases List.mem_cons.mp hmem with hh | hh
        · exact hc hh.symm
        · exact ih ht hh
    · rw [ht] at h
      simp at h

theorem lastSpaceIdx_lt (s : Str) (i : Nat) (h : lastSpaceIdx s = some i) :
    i < s.length :=
  (List.get?_eq_some.mp (lastSpaceIdx_some s i h)).1

theorem isPunctB_not_ws (c : Char) (h : isPunctB c = true) : isWsB c = false := by
  unfold isPunctB at h
  rcases Bool.or_eq_true_iff.mp h with h1 | h1
  · rcases Bool.or_eq_true_iff.mp h1 with h2 | h2 <;>
      simp_all [isWsB, decide_eq_true_eq]
  · simp_all [isWsB, decide_eq_true_eq]

theorem wordsOf_ne_nil_of_nonws (s : Str) (h : ∃ c ∈ s, isWsB c = false) :
    wordsOf s ≠ [] := by
  induction s with
  | nil => obtain ⟨c, hc, _⟩ := h; simp at hc
  | cons d t ih =>
    by_cases hd : isWsB d = true
    · rw [wordsOf_cons_ws d t hd]
      obtain ⟨c, hc, hcw⟩ := h
      rcases List.mem_cons.mp hc with rfl | hc'
      · rw [hd] at hcw; cases hcw
      · exact ih ⟨c, hc', hcw⟩
    · have hd' : isWsB d = false := by revert hd; cases isWsB d <;> simp
      rw [wordsOf_cons_nonws t d hd']
      simp

theorem jsTokenizeAux_mem_nonws : ∀ (fuel : Nat) (s : Str),
    ∀ t ∈ jsTokenizeAux fuel s, ∃ c ∈ t, isWsB c = false := by
  intro fuel
  induction fuel with
  | zero => intro s t ht; simp [jsTokenizeAux] at ht
  | succ fuel ih =>
    intro s t ht
    cases s with
    | nil => simp [jsTokenizeAux] at ht
    | cons c s' =>
      rw [jsTokenizeAux] at ht
      by_cases h1 : ((c :: s').takeWhile (fun d => !isPunctB d)).length ≠ 0 ∧
          ((c :: s').dropWhile (fun d => !isPunctB d)).length ≠ 0
      · rw [if_pos h1] at ht
        rcases List.mem_cons.mp ht with rfl | ht'
        · rcases hrest : (c :: s').dropWhile (fun d => !isPunctB d) with _ | ⟨e, r⟩
          · rw [hrest] at h1
            simp at h1
          · have hep : isPunctB e = true := by
              have := dropWhile_head_false (fun d => !isPunctB d) (c :: s') e
                (by rw [hrest]; rfl)
              simpa using this
            refine ⟨e, ?_, isPunctB_not_ws e hep⟩
            refine List.mem_append.mpr (Or.inr ?_)
            rw [List.takeWhile_cons_of_pos hep]
            exact List.mem_cons_self e _
        · exact ih _ t ht'
      · rw [if_neg h1] at ht
        by_cases h2 : ¬ isWsB c
        · rw [if_pos h2] at ht
          rcases List.mem_cons.mp ht with rfl | ht'
          · refine ⟨c, ?_, by revert h2; cases isWsB c <;> simp⟩
            rw [List.takeWhile_cons_of_pos (by revert h2; cases isWsB c <;> simp)]
            exact List.mem_cons_self c _
          · exact ih _ t ht'
        · rw [if_neg h2] at ht
          exact ih s' t ht

theorem hardSplit_chunks_le (m : Nat) : ∀ (fuel : Nat) (s : Str),
    ∀ c ∈ (hardSplit m fuel s).1, c.length ≤ m := by
  intro fuel
  induction fuel with
  | zero => intro s c hc; simp [hardSplit] at hc
  | succ fuel ih =>
    intro s c hc
    by_cases hlen : s.length ≤ m
    · simp only [hardSplit, if_pos hlen] at hc
      simp at hc
    · simp only [hardSplit, if_neg hlen] at hc
      rcases hls : lastSpaceIdx (s.take m) with _ | i
      · rw [hls] at hc
        simp only at hc
        rcases List.mem_cons.mp hc with rfl | hc'
        · simp
        · exact ih _ c hc'
      · rw [hls] at hc
        simp only at hc
        by_cases hi : 0 < i
        · rw [if_pos hi] at hc
          simp only at hc
          rcases List.mem_cons.mp hc with rfl | hc'
          · have h1 : ((s.take m).take i).length ≤ m := by
              calc ((s.take m).take i).length ≤ (s.take m).length :=
                  (List.take_sublist _ _).length_le
                _ ≤ m := by simp
            exact le_trans (jsTrim_length_le _) h1
          · exact ih _ c hc'
        · rw [if_neg hi] at hc
          simp only at hc
          rcases List.mem_cons.mp hc with rfl | hc'
          · simp
          · exact ih _ c hc'

theorem hardSplit_rem_le (m : Nat) (hm : 1 ≤ m) : ∀ (fuel : Nat) (s : Str),
    s.length ≤ fuel → ((hardSplit m fuel s).2).length ≤ m := by
  intro fuel
  induction fuel with
  | zero =>
    intro s hs
    have : s.length = 0 := Nat.le_zero.mp hs
    simp [hardSplit, this]
  | succ fuel ih =>
    intro s hs
    by_cases hlen : s.length ≤ m
    · simp [hardSplit, if_pos hlen]
      exact hlen
    · simp only [hardSplit, if_neg hlen]
      rcases hls : lastSpaceIdx (s.take m) with _ | i
      · simp only
        refine ih _ ?_
        calc (jsTrim (s.drop m)).length ≤ (s.drop m).length := jsTrim_length_le _
          _ = s.length - m := by simp
          _ ≤ fuel := by omega
      · simp only
        by_cases hi : 0 < i
        · rw [if_pos hi]
          simp only
          refine ih _ ?_
          calc (jsTrim (s.drop i)).length ≤ (s.drop i).length := jsTrim_length_le _
            _ = s.length - i := by simp
            _ ≤ fuel := by omega
        · rw [if_neg hi]
          simp only
          refine ih _ ?_
          calc (jsTrim (s.drop m)).length ≤ (s.drop m).length := jsTrim_length_le _
            _ = s.length - m := by simp
            _ ≤ fuel := by omega

theorem wordsOf_ne_nil_head (s : Str) (c : Char) (hh : s.head? = some c)
    (hc : isWsB c = false) : wordsOf s ≠ [] := by
  refine wordsOf_ne_nil_of_nonws s ⟨c, ?_, hc⟩
  cases s with
  | nil => simp at hh
  | cons d t =>
    simp only [List.head?_cons, Option.some.injEq] at hh
    subst hh
    exact List.mem_cons_self _ _

theorem trimmed_head_nonws (s : Str) (ht : jsTrim s = s) (c : Char)
    (hh : s.head? = some c) : isWsB c = false :=
  jsTrim_head_not_ws s c (by rwa [ht])

theorem trimmed_getLast_nonws (s : Str) (ht : jsTrim s = s) (c : Char)
    (hh : s.getLast? = some c) : isWsB c = false :=
  jsTrim_getLast_not_ws s c (by rwa [ht])

theorem getLast_mem_drop (s : Str) (i : Nat) (hi : i < s.length) (c : Char)
    (hl : s.getLast? = some c) : c ∈ s.drop i := by
  have hne : s.drop i ≠ [] := by
    intro h
    have := congrArg List.length h
    simp at this
    omega
  have : (s.drop i).getLast? = s.getLast? := by
    conv_rhs => rw [← List.take_append_drop i s]
    rw [List.getLast?_append_of_ne_nil _ hne]
  exact List.mem_of_mem_getLast? (by rw [this, hl]; rfl)

theorem hardSplit_good (m : Nat) (hm : 1 ≤ m) : ∀ (fuel : Nat) (s : Str),
    jsTrim s = s → wordsOf s ≠ [] →
    ((jsTrim (hardSplit m fuel s).2 = (hardSplit m fuel s).2 ∧
        wordsOf (hardSplit m fuel s).2 ≠ [])
      ∧ ∀ c ∈ (hardSplit m fuel s).1,
          wordsOf c ≠ [] ∧ (jsTrim c = c ∨ ¬ ' ' ∈ c)) := by
  intro fuel
  induction fuel with
  | zero =>
    intro s ht hw
    exact ⟨⟨ht, hw⟩, by simp [hardSplit]⟩
  | succ fuel ih =>
    intro s ht hw
    have hsne : s ≠ [] := by
      intro h
      exact hw (by rw [h]; rfl)
    obtain ⟨c0, t0, rfl⟩ : ∃ c0 t0, s = c0 :: t0 := by
      cases s with
      | nil => exact absurd rfl hsne
      | cons a b => exact ⟨a, b, rfl⟩
    have hc0 : isWsB c0 = false := trimmed_head_nonws _ ht c0 rfl
    have hlast : ∃ cl, (c0 :: t0).getLast? = some cl ∧ isWsB cl = false := by
      refine ⟨(c0 :: t0).getLast (by simp), List.getLast?_eq_getLast _ (by simp), ?_⟩
      exact trimmed_getLast_nonws _ ht _ (List.getLast?_eq_getLast _ (by simp))
    obtain ⟨cl, hcl, hclw⟩ := hlast
    have hrem : ∀ i, 1 ≤ i → i < (c0 :: t0).length →
        jsTrim (jsTrim ((c0 :: t0).drop i)) = jsTrim ((c0 :: t0).drop i)
        ∧ wordsOf (jsTrim ((c0 :: t0).drop i)) ≠ [] := by
      intro i h1 h2
      refine ⟨jsTrim_idem _, ?_⟩
      rw [wordsOf_jsTrim]
      exact wordsOf_ne_nil_of_nonws _ ⟨cl, getLast_mem_drop _ i h2 cl hcl, hclw⟩
    by_cases hlen : (c0 :: t0).length ≤ m
    · simp only [hardSplit, if_pos hlen]
      exact ⟨⟨ht, hw⟩, by simp⟩
    · simp only [hardSplit, if_neg hlen]
      have hmlt : m < (c0 :: t0).length := Nat.lt_of_not_le hlen
      rcases hls : lastSpaceIdx ((c0 :: t0).take m) with _ | i
      · simp only
        have hgood := ih (jsTrim ((c0 :: t0).drop m))
          (hrem m hm hmlt).1 (hrem m hm hmlt).2
        refine ⟨hgood.1, ?_⟩
        intro c hc
        rcases List.mem_cons.mp hc with rfl | hc'
        · constructor
          · refine wordsOf_ne_nil_head _ c0 ?_ hc0
            cases m with
            | zero => omega
            | succ m' => rfl
          · exact Or.inr (lastSpaceIdx_none _ hls)
        · exact hgood.2 c hc'
      · simp only
        by_cases hi : 0 < i
        · rw [if_pos hi]
          simp only
          have hilt : i < m := by
            have := lastSpaceIdx_lt _ i hls
            calc i < ((c0 :: t0).take m).length := this
              _ ≤ m := by simp
          have hgood := ih (jsTrim ((c0 :: t0).drop i))
            (hrem i hi (by omega)).1 (hrem i hi (by omega)).2
          refine ⟨hgood.1, ?_⟩
          intro c hc
          rcases List.mem_cons.mp hc with rfl | hc'
          · constructor
            · rw [wordsOf_jsTrim]
              refine wordsOf_ne_nil_head _ c0 ?_ hc0
              rw [List.take_take]
              have h1 : min i m = i := by omega
              rw [h1]
              cases i with
              | zero => omega
              | succ i' => rfl
            · exact Or.inl (jsTrim_idem _)
          · exact hgood.2 c hc'
        · exfalso
          have h0 : i = 0 := by omega
          subst h0
          have h1 := lastSpaceIdx_some _ 0 hls
          have h2 : ((c0 :: t0).take m).get? 0 = some c0 := by
            cases m with
            | zero => omega
            | succ m' => rfl
          rw [h2] at h1
          have : c0 = ' ' := by simpa using h1
          rw [this] at hc0
          simp [isWsB] at hc0

theorem exists_nonws_of_wordsOf_ne_nil (s : Str) (h : wordsOf s ≠ []) :
    ∃ c ∈ s, isWsB c = false := by
  induction s with
  | nil => exact absurd rfl h
  | cons d t ih =>
    by_cases hd : isWsB d = true
    · rw [wordsOf_cons_ws d t hd] at h
      obtain ⟨c, hc, hcw⟩ := ih h
      exact ⟨c, List.mem_cons_of_mem d hc, hcw⟩
    · exact ⟨d, List.mem_cons_self d t, by revert hd; cases isWsB d <;> simp⟩

theorem splitStep_good (m ov : Nat) (hm : 1 ≤ m) (st : List Str × Str) (sen : Str)
    (hsen : ∃ c ∈ sen, isWsB c = false) (hinv : ChunksInv st) :
    ChunksInv (splitStep m ov st sen) := by
  have hs0w : wordsOf (jsTrim sen) ≠ [] := by
    rw [wordsOf_jsTrim]
    exact wordsOf_ne_nil_of_nonws sen hsen
  have hhs := hardSplit_good m hm (jsTrim sen).length (jsTrim sen) (jsTrim_idem sen) hs0w
  have hrw : wordsOf (hardSplit m (jsTrim sen).length (jsTrim sen)).2 ≠ [] := hhs.1.2
  obtain ⟨cr, hcr, hcrw⟩ := exists_nonws_of_wordsOf_ne_nil _ hrw
  have hnewcur : ∀ X : Str,
      wordsOf (X ++ (hardSplit m (jsTrim sen).length (jsTrim sen)).2 ++ [' ']) ≠ [] := by
    intro X
    refine wordsOf_ne_nil_of_nonws _ ⟨cr, ?_, hcrw⟩
    rw [List.append_assoc]
    exact List.mem_append.mpr (Or.inr (List.mem_append.mpr (Or.inl hcr)))
  have hdocs1 : ∀ c ∈ st.1 ++ (hardSplit m (jsTrim sen).length (jsTrim sen)).1,
      ChunkGood c := by
    intro c hc
    rcases List.mem_append.mp hc with h | h
    · exact hinv.1 c h
    · exact hhs.2 c h
  unfold splitStep
  by_cases h1 : m < st.2.length + (hardSplit m (jsTrim sen).length (jsTrim sen)).2.length
  · rw [if_pos h1]
    by_cases h2 : 0 < st.2.length
    · rw [if_pos h2]
      refine ⟨?_, Or.inr (hnewcur _)⟩
      intro c hc
      rcases List.mem_append.mp hc with h | h
      · exact hdocs1 c h
      · have hc2 : c = jsTrim st.2 := by simpa using h
        subst hc2
        have hw2 : wordsOf st.2 ≠ [] := by
          rcases hinv.2 with h0 | h0
          · rw [h0] at h2; simp at h2
          · exact h0
        exact ⟨by rw [wordsOf_jsTrim]; exact hw2, Or.inl (jsTrim_idem _)⟩
    · rw [if_neg h2]
      exact ⟨hdocs1, Or.inr (hnewcur _)⟩
  · rw [if_neg h1]
    exact ⟨hdocs1, Or.inr (hnewcur _)⟩

theorem foldl_splitStep_good (m ov : Nat) (hm : 1 ≤ m) : ∀ (toks : List Str),
    (∀ t ∈ toks, ∃ c ∈ t, isWsB c = false) → ∀ st, ChunksInv st →
    ChunksInv (toks.foldl (splitStep m ov) st) := by
  intro toks
  induction toks with
  | nil => intro _ st h; exact h
  | cons t ts ih =>
    intro htoks st h
    exact ih (fun u hu => htoks u (List.mem_cons_of_mem t hu)) _
      (splitStep_good m ov hm st t (htoks t (List.mem_cons_self t ts)) h)

/-- Every chunk emitted by the chunker contains at least one word and is
either trimmed or contains no plain space. -/
theorem splitTextIntoDocuments_good (text : Str) (m ov : Nat) (hm : 1 ≤ m) :
    ∀ c ∈ splitTextIntoDocuments text m ov, ChunkGood c := by
  intro c hc
  unfold splitTextIntoDocuments at hc
  have hinv := foldl_splitStep_good m (min ov (m - 1)) hm (jsTokenize text)
    (fun t ht => by
      obtain ⟨d, hd, hdw⟩ := jsTokenizeAux_mem_nonws text.length text t ht
      exact ⟨d, hd, hdw⟩)
    ([], []) ⟨by simp, Or.inl rfl⟩
  by_cases hfin : 0 < (jsTrim ((jsTokenize text).foldl
      (splitStep m (min ov (m - 1))) ([], [])).2).length
  · rw [if_pos hfin] at hc
    rcases List.mem_append.mp hc with h | h
    · exact hinv.1 c h
    · have hc2 : c = jsTrim ((jsTokenize text).foldl
          (splitStep m (min ov (m - 1))) ([], [])).2 := by simpa using h
      subst hc2
      have hw2 : wordsOf ((jsTokenize text).foldl
          (splitStep m (min ov (m - 1))) ([], [])).2 ≠ [] := by
        rcases hinv.2 with h0 | h0
        · rw [h0] at hfin; simp [jsTrim] at hfin
        · exact h0
      exact ⟨by rw [wordsOf_jsTrim]; exact hw2, Or.inl (jsTrim_idem _)⟩
  · rw [if_neg hfin] at hc
    exact hinv.1 c hc

theorem trimmed_few_words_no_space (content : Str)
    (hg : jsTrim content = content ∨ ¬ ' ' ∈ content)
    (hw : (wordsOf content).length < 2) : ¬ ' ' ∈ content := by
  rcases hg with htr | hns
  · intro hmem
    obtain ⟨a, b, rfl⟩ := List.append_of_mem hmem
    have hane : a ≠ [] := by
      rintro rfl
      have := trimmed_head_nonws _ htr ' ' rfl
      simp [isWsB] at this
    have hbne : b ≠ [] := by
      rintro rfl
      have hl : (a ++ [' ']).getLast? = some ' ' := List.getLast?_concat a
      have := trimmed_getLast_nonws _ htr ' ' hl
      simp [isWsB] at this
    obtain ⟨a0, a', rfl⟩ : ∃ a0 a', a = a0 :: a' := by
      cases a with
      | nil => exact absurd rfl hane
      | cons x y => exact ⟨x, y, rfl⟩
    have ha0 : isWsB a0 = false := trimmed_head_nonws _ htr a0 rfl
    have hwa : wordsOf (a0 :: a') ≠ [] := wordsOf_ne_nil_head _ a0 rfl ha0
    have hbl : ((a0 :: a') ++ ' ' :: b).getLast? = b.getLast? := by
      rw [List.getLast?_append_of_ne_nil _ (by simp)]
      cases b with
      | nil => exact absurd rfl hbne
      | cons b0 b' => rw [List.getLast?_cons_cons]
    obtain ⟨cb, hcb⟩ : ∃ cb, b.getLast? = some cb := by
      cases b with
      | nil => exact absurd rfl hbne
      | cons b0 b' => exact ⟨_, List.getLast?_eq_getLast _ (by simp)⟩
    have hcbw : isWsB cb = false :=
      trimmed_getLast_nonws _ htr cb (by rw [hbl]; exact hcb)
    have hwb : wordsOf b ≠ [] := wordsOf_ne_nil_of_nonws b
      ⟨cb, List.mem_of_mem_getLast? (by rw [hcb]; rfl), hcbw⟩
    rw [wordsOf_append_ws _ ' ' _ (by decide), List.length_append] at hw
    have h1 : 0 < (wordsOf (a0 :: a')).length := List.length_pos.mpr hwa
    have h2 : 0 < (wordsOf b).length := List.length_pos.mpr hwb
    omega
  · exact hns

theorem flushSection_shape (url : Str) (st : GenState) :
    ∀ d ∈ flushSection url st, UrlDocShape url d := by
  intro d hd
  unfold flushSection at hd
  by_cases h : jsTrim st.currentDocument = []
  · rw [if_pos h] at hd
    simp at hd
  · rw [if_neg h] at hd
    obtain ⟨chunk, hchunk, rfl⟩ := List.mem_map.mp hd
    exact ⟨rfl, st.headingStack, chunk, jsTrim st.currentDocument, hchunk, rfl⟩

theorem generateDocumentsFromUrl_shape (elems : List Element) (url : Str) :
    ∀ d ∈ generateDocumentsFromUrl elems url, UrlDocShape url d := by
  have hfold : ∀ (es : List Element) (acc : List UDoc × GenState),
      (∀ d ∈ acc.1, UrlDocShape url d) →
      ∀ d ∈ (es.foldl (fun (acc : List UDoc × GenState) e =>
          let p := urlStep url acc.2 e
          (acc.1 ++ p.1, p.2)) acc).1, UrlDocShape url d := by
    intro es
    induction es with
    | nil => intro acc h d hd; exact h d hd
    | cons e es ih =>
      intro acc h d hd
      refine ih _ ?_ d hd
      intro d' hd'
      rcases List.mem_append.mp hd' with h' | h'
      · exact h d' h'
      · rcases e with ⟨tag, txt⟩
        cases tag with
        | title => simp [urlStep] at h'
        | head n => exact flushSection_shape url acc.2 d' h'
        | para => simp [urlStep] at h'
        | item => simp [urlStep] at h'
  intro d hd
  unfold generateDocumentsFromUrl at hd
  rcases List.mem_append.mp hd with h | h
  · exact hfold elems ([], ⟨[], [], true⟩) (by simp) d h
  · exact flushSection_shape url _ d h

theorem generateDocumentsFromText_shape (text userName : Str) :
    ∀ d ∈ generateDocumentsFromText text userName,
      d.source = userName ∧ ∃ t, d.content ∈ splitTextIntoDocuments t 1000 250 := by
  have hfold : ∀ (ls : List Str) (acc : List UDoc × Str),
      (∀ d ∈ acc.1, d.source = userName ∧
        ∃ t, d.content ∈ splitTextIntoDocuments t 1000 250) →
      ∀ d ∈ (ls.foldl (textStep userName) acc).1,
        d.source = userName ∧ ∃ t, d.content ∈ splitTextIntoDocuments t 1000 250 := by
    intro ls
    induction ls with
    | nil => intro acc h d hd; exact h d hd
    | cons l ls ih =>
      intro acc h d hd
      refine ih _ ?_ d hd
      intro d' hd'
      unfold textStep at hd'
      by_cases h1 : jsTrim l = []
      · rw [if_pos h1] at hd'
        exact h d' hd'
      · rw [if_neg h1] at hd'
        by_cases h2 : 2000 < acc.2.length + (jsTrim l).length
        · rw [if_pos h2] at hd'
          simp only at hd'
          rcases List.mem_append.mp hd' with h' | h'
          · exact h d' h'
          · obtain ⟨chunk, hchunk, rfl⟩ := List.mem_map.mp h'
            exact ⟨rfl, acc.2, hchunk⟩
        · rw [if_neg h2] at hd'
          exact h d' hd'
  intro d hd
  unfold generateDocumentsFromText at hd
  by_cases hfin : jsTrim ((splitOnChar '\n' text).foldl (textStep userName) ([], [])).2 = []
  · rw [if_pos hfin] at hd
    exact hfold _ ([], []) (by simp) d hd
  · rw [if_neg hfin] at hd
    rcases List.mem_append.mp hd with h | h
    · exact hfold _ ([], []) (by simp) d h
    · obtain ⟨chunk, hchunk, rfl⟩ := List.mem_map.mp h
      exact ⟨rfl, _, hchunk⟩

theorem urlDocShape_two_words (url : Str) (d : UDoc) (h : UrlDocShape url d) :
    2 ≤ (wordsOf d.content).length := by
  obtain ⟨hsrc, stack, chunk, t, hchunk, hcontent⟩ := h
  have hg := splitTextIntoDocuments_good t 1000 250 (by omega) chunk hchunk
  have hchw : 0 < (wordsOf chunk).length := List.length_pos.mpr hg.1
  rw [hcontent]
  have hre : joinSep ((" > ").toList) stack ++ (" => ").toList ++ chunk =
      joinSep ((" > ").toList) stack ++ ' ' :: (['=', '>'] ++ ' ' :: chunk) := by
    simp
  rw [hre, wordsOf_append_ws _ ' ' _ (by decide),
    wordsOf_append_ws _ ' ' _ (by decide), List.length_append, List.length_append]
  have h2 : wordsOf ['=', '>'] = [['=', '>']] := by decide
  rw [h2]
  simp only [List.length_singleton]
  omega

/-- C5: a document reaching insertDocument with fewer than two
whitespace-delimited words is skipped and never persisted; in particular the
single word hello is never inserted. -/
theorem insert_two_word_filter :
    (∀ (text userName : Str) (d : UDoc), d ∈ generateDocumentsFromText text userName →
      (wordsOf d.content).length < 2 →
      ∀ (newId : Nat) (emb : List Int) (owner : Str) (store : List Record),
        insertDocument newId d.content emb d.source owner store = store)
    ∧ (∀ (elems : List Element) (url : Str) (d : UDoc),
        d ∈ generateDocumentsFromUrl elems url →
        (wordsOf d.content).length < 2 →
        ∀ (newId : Nat) (emb : List Int) (owner : Str) (store : List Record),
          insertDocument newId d.content emb d.source owner store = store)
    ∧ (∀ (newId : Nat) (emb : List Int) (src owner : Str) (store : List Record),
        insertDocument newId (("hello").toList) emb src owner store = store) := by
  refine ⟨?_, ?_, ?_⟩
  · intro text userName d hd hw newId emb owner store
    obtain ⟨hsrc, t, hchunk⟩ := generateDocumentsFromText_shape text userName d hd
    have hg := splitTextIntoDocuments_good t 1000 250 (by omega) d.content hchunk
    have hns := trimmed_few_words_no_space d.content hg.2 hw
    unfold insertDocument
    rw [if_pos ((splitOnChar_length_lt_two ' ' d.content).mpr hns)]
  · intro elems url d hd hw newId emb owner store
    have h2 := urlDocShape_two_words url d (generateDocumentsFromUrl_shape elems url d hd)
    omega
  · intro newId emb src owner store
    unfold insertDocument
    rw [if_pos (by decide)]

theorem insert_two_word_filter_witness :
    insertDocument 7 (("hello").toList) [] (("n").toList) (("me").toList)
      [⟨1, ("a b").toList, [], ("s").toList, ("me").toList⟩] =
      [⟨1, ("a b").toList, [], ("s").toList, ("me").toList⟩] :=
  insert_two_word_filter.1 (("hello").toList) (("n").toList)
    ⟨("hello").toList, ("n").toList⟩ (by decide) (by decide) 7 [] (("me").toList)
    [⟨1, ("a b").toList, [], ("s").toList, ("me").toList⟩]

theorem processDocsLoop_store (e : Nat → Except Str (List Int)) (i : Nat → Bool)
    (nid : Nat → Nat) (uid : Str) (total : Nat) : ∀ (docs : List UDoc)
    (idx count : Nat) (store : List Record),
    (processDocsLoop e i nid uid total docs idx count store).1 =
      store ++ insertedRecords e i nid uid docs idx := by
  intro docs
  induction docs with
  | nil => intro idx count store; simp [processDocsLoop, insertedRecords]
  | cons d ds ih =>
    intro idx count store
    simp only [processDocsLoop, processDocument_snd]
    rw [ih]
    show (processDocument (e idx) (i idx) (nid idx) d uid store).1 ++ _ = _
    cases he : e idx with
    | error m => simp [processDocument, insertedRecords, he]
    | ok emb =>
      by_cases hi : i idx
      · simp [processDocument, insertedRecords, he, hi]
      · by_cases hg : (splitOnChar ' ' d.content).length < 2
        · simp [processDocument, insertedRecords, insertDocument, he, hi, hg]
        · simp [processDocument, insertedRecords, insertDocument, he, hi, hg]

theorem insertedRecords_mem (e : Nat → Except Str (List Int)) (i : Nat → Bool)
    (nid : Nat → Nat) (uid : Str) : ∀ (docs : List UDoc) (idx : Nat),
    ∀ r ∈ insertedRecords e i nid uid docs idx,
      r.owner = uid ∧ (∃ j, r.id = nid j) ∧ ∃ d ∈ docs, r.source = d.source := by
  intro docs
  induction docs with
  | nil => intro idx r hr; simp [insertedRecords] at hr
  | cons d ds ih =>
    intro idx r hr
    simp only [insertedRecords] at hr
    rcases List.mem_append.mp hr with h | h
    · cases he : e idx with
      | error m => rw [he] at h; simp at h
      | ok emb =>
        rw [he] at h
        simp only at h
        by_cases hi : i idx
        · rw [if_pos hi] at h; simp at h
        · rw [if_neg hi] at h
          by_cases hg : (splitOnChar ' ' d.content).length < 2
          · rw [if_pos hg] at h; simp at h
          · rw [if_neg hg] at h
            simp only [List.mem_singleton] at h
            subst h
            exact ⟨rfl, ⟨idx, rfl⟩, d, List.mem_cons_self d ds, rfl⟩
    · obtain ⟨ho, hj, dd, hdd, hsrc⟩ := ih (idx + 1) r h
      exact ⟨ho, hj, dd, List.mem_cons_of_mem d hdd, hsrc⟩

theorem deleteExistingDocuments_no_matching (url uid : Str) (store : List Record) :
    ∀ r ∈ deleteExistingDocuments url uid store,
      ¬ (r.source = url ∧ r.owner = uid) := by
  intro r hr
  unfold deleteExistingDocuments at hr
  by_cases he : ((store.filter
      (fun r => decide (r.source = url ∧ r.owner = uid))).map Record.id).isEmpty
  · rw [if_pos he] at hr
    intro hmatch
    have hmem : r ∈ store.filter (fun r => decide (r.source = url ∧ r.owner = uid)) :=
      List.mem_filter.mpr ⟨hr, by simpa using hmatch⟩
    rw [List.isEmpty_iff] at he
    rw [List.map_eq_nil] at he
    rw [he] at hmem
    simp at hmem
  · rw [if_neg he] at hr
    intro hmatch
    have h1 := (List.mem_filter.mp hr).2
    have h2 : r.id ∈ (store.filter
        (fun r => decide (r.source = url ∧ r.owner = uid))).map Record.id :=
      List.mem_map.mpr ⟨r, List.mem_filter.mpr
        ⟨(List.mem_filter.mp hr).1, by simpa using hmatch⟩, rfl⟩
    exact absurd h2 (of_decide_eq_true h1)

theorem deleteExistingDocuments_of_no_matching (url uid : Str) (store : List Record)
    (h : ∀ r ∈ store, ¬ (r.source = url ∧ r.owner = uid)) :
    deleteExistingDocuments url uid store = store := by
  unfold deleteExistingDocuments
  have hfe : store.filter (fun r => decide (r.source = url ∧ r.owner = uid)) = [] := by
    rw [List.filter_eq_nil]
    intro r hr
    simpa using h r hr
  rw [hfe]
  rfl

theorem deleteExistingDocuments_append_matching (url uid : Str)
    (store2 ins : List Record)
    (hins : ∀ r ∈ ins, r.source = url ∧ r.owner = uid)
    (hclean : ∀ r ∈ store2, ¬ (r.source = url ∧ r.owner = uid))
    (hfresh : ∀ r ∈ store2, ∀ r' ∈ ins, r.id ≠ r'.id) :
    deleteExistingDocuments url uid (store2 ++ ins) = store2 := by
  unfold deleteExistingDocuments
  have hfa : (store2 ++ ins).filter (fun r => decide (r.source = url ∧ r.owner = uid))
      = ins := by
    rw [List.filter_append]
    have h1 : store2.filter (fun r => decide (r.source = url ∧ r.owner = uid)) = [] := by
      rw [List.filter_eq_nil]
      intro r hr
      simpa using hclean r hr
    have h2 : ins.filter (fun r => decide (r.source = url ∧ r.owner = uid)) = ins := by
      rw [List.filter_eq_self]
      intro r hr
      simpa using hins r hr
    rw [h1, h2, List.nil_append]
  rw [hfa]
  cases hins0 : ins with
  | nil => simp
  | cons r0 ins' =>
    rw [← hins0]
    have hne : (ins.map Record.id).isEmpty = false := by
      rw [hins0]
      rfl
    simp only [hne, Bool.false_eq_true, if_false]
    rw [List.filter_append]
    have h3 : store2.filter (fun r => decide (¬ r.id ∈ ins.map Record.id)) = store2 := by
      rw [List.filter_eq_self]
      intro r hr
      simp only [decide_eq_true_eq]
      intro hmem
      obtain ⟨r', hr', hid⟩ := List.mem_map.mp hmem
      exact hfresh r hr r' hr' hid.symm
    have h4 : ins.filter (fun r => decide (¬ r.id ∈ ins.map Record.id)) = [] := by
      rw [List.filter_eq_nil]
      intro r hr
      simp only [decide_eq_true_eq, Decidable.not_not]
      exact List.mem_map.mpr ⟨r, hr, rfl⟩
    rw [h3, h4, List.append_nil]

theorem deleteExistingDocuments_subset (url uid : Str) (store : List Record) :
    ∀ r ∈ deleteExistingDocuments url uid store, r ∈ store := by
  intro r hr
  unfold deleteExistingDocuments at hr
  by_cases he : ((store.filter
      (fun r => decide (r.source = url ∧ r.owner = uid))).map Record.id).isEmpty
  · rw [if_pos he] at hr; exact hr
  · rw [if_neg he] at hr; exact (List.mem_filter.mp hr).1

theorem deleteExistingDocuments_exact (url uid : Str) (store : List Record)
    (hnd : (store.map Record.id).Nodup) :
    deleteExistingDocuments url uid store =
      store.filter (fun r => ¬ (r.source = url ∧ r.owner = uid)) := by
  unfold deleteExistingDocuments
  by_cases he : ((store.filter
      (fun r => decide (r.source = url ∧ r.owner = uid))).map Record.id).isEmpty
  · rw [if_pos he]
    symm
    rw [List.filter_eq_self]
    intro r hr
    simp only [decide_eq_true_eq]
    intro hmatch
    have hmem : r ∈ store.filter (fun r => decide (r.source = url ∧ r.owner = uid)) :=
      List.mem_filter.mpr ⟨hr, by simpa using hmatch⟩
    rw [List.isEmpty_iff, List.map_eq_nil_iff] at he
    rw [he] at hmem
    simp at hmem
  · rw [if_neg he]
    apply List.filter_congr
    intro r hr
    rw [decide_eq_decide]
    constructor
    · intro hni hmatch
      exact hni (List.mem_map.mpr ⟨r, List.mem_filter.mpr ⟨hr, by simpa using hmatch⟩, rfl⟩)
    · intro hnm hmem
      obtain ⟨r', hr', hid⟩ := List.mem_map.mp hmem
      have hr'' := List.mem_filter.mp hr'
      have : r' = r := List.inj_on_of_nodup_map hnd hr''.1 hr hid
      subst this
      exact hnm (by simpa using hr''.2)

theorem processUrlInput_fst_congr (env : UrlEnv) (url uid : Str) (A B : List Record)
    (hd : env.deleteErr = none)
    (h : deleteExistingDocuments url uid A = deleteExistingDocuments url uid B) :
    (processUrlInput env url uid A).1 = (processUrlInput env url uid B).1 := by
  simp only [processUrlInput, hd]
  rw [h]

theorem processUrlInput_fst_delete (env : UrlEnv) (url uid : Str) (store : List Record)
    (hfresh : ∀ r ∈ store, ∀ j : Nat, r.id ≠ env.newId j) :
    deleteExistingDocuments url uid (processUrlInput env url uid store).1 =
      deleteExistingDocuments url uid store := by
  cases hd : env.deleteErr with
  | some m =>
    have hF : (processUrlInput env url uid store).1 = store := by
      simp [processUrlInput, hd]
    rw [hF]
  | none =>
    have hclean := deleteExistingDocuments_no_matching url uid store
    cases hf1 : env.fetch1 with
    | error m =>
      have hF : (processUrlInput env url uid store).1 =
          deleteExistingDocuments url uid store := by
        simp [processUrlInput, hd, hf1]
      rw [hF, deleteExistingDocuments_of_no_matching url uid _ hclean]
    | ok elems1 =>
      cases hf2 : env.fetch2 with
      | error m =>
        have hF : (processUrlInput env url uid store).1 =
            deleteExistingDocuments url uid store := by
          simp [processUrlInput, hd, hf1, hf2]
        rw [hF, deleteExistingDocuments_of_no_matching url uid _ hclean]
      | ok elems2 =>
        have hF : (processUrlInput env url uid store).1 =
            deleteExistingDocuments url uid store ++
              insertedRecords env.embedRes env.insertFail env.newId uid
                (generateDocumentsFromUrl elems2 url) 0 := by
          simp only [processUrlInput, hd, hf1, hf2]
          exact processDocsLoop_store env.embedRes env.insertFail env.newId uid
            (generateDocumentsFromUrl elems1 url).length
            (generateDocumentsFromUrl elems2 url) 0 0
            (deleteExistingDocuments url uid store)
        rw [hF]
        apply deleteExistingDocuments_append_matching
        · intro r hr
          obtain ⟨ho, _, d, hd', hsrc⟩ := insertedRecords_mem env.embedRes env.insertFail
            env.newId uid (generateDocumentsFromUrl elems2 url) 0 r hr
          have hshape := generateDocumentsFromUrl_shape elems2 url d hd'
          exact ⟨hsrc.trans hshape.1, ho⟩
        · exact hclean
        · intro r hr r' hr'
          obtain ⟨_, ⟨j, hj⟩, _⟩ := insertedRecords_mem env.embedRes env.insertFail
            env.newId uid (generateDocumentsFromUrl elems2 url) 0 r' hr'
          rw [hj]
          exact hfresh r (deleteExistingDocuments_subset url uid store r hr) j

/-- C6: re-ingesting the same URL for the same user replaces the earlier
records rather than duplicating them: the deletion step removes exactly the
records whose source and owner both match (given pairwise-distinct ids), a
second URL run on the store left by a first run produces the same store as a
single run (given that the first run's fresh ids do not collide with the
initial store and the second run's deletion does not fail), and a text
ingestion never deletes: it returns the initial store extended with the
newly inserted records. -/
theorem url_ingestion_idempotent
    (env1 env2 : UrlEnv) (url uid : Str) (store : List Record)
    (hnd : (store.map Record.id).Nodup)
    (hfresh : ∀ r ∈ store, ∀ j : Nat, r.id ≠ env1.newId j)
    (hd2 : env2.deleteErr = none) :
    deleteExistingDocuments url uid store =
      store.filter (fun r => ¬ (r.source = url ∧ r.owner = uid)) ∧
    (processUrlInput env2 url uid (processUrlInput env1 url uid store).1).1 =
      (processUrlInput env2 url uid store).1 ∧
    (∀ (tenv : TextEnv) (text userName : Str),
      (processTextInput tenv text userName uid store).1 =
        store ++ insertedRecords tenv.embedRes tenv.insertFail tenv.newId uid
          (generateDocumentsFromText text userName) 0) := by
  refine ⟨deleteExistingDocuments_exact url uid store hnd, ?_, ?_⟩
  · exact processUrlInput_fst_congr env2 url uid _ store hd2
      (processUrlInput_fst_delete env1 url uid store hfresh)
  · intro tenv text userName
    unfold processTextInput
    exact processDocsLoop_store tenv.embedRes tenv.insertFail tenv.newId uid
      (generateDocumentsFromText text userName).length
      (generateDocumentsFromText text userName) 0 0 store

theorem url_ingestion_idempotent_witness :
    (processUrlInput c6Env c6Url c6Uid (processUrlInput c6Env c6Url c6Uid c6Store).1).1 =
      (processUrlInput c6Env c6Url c6Uid c6Store).1 :=
  (url_ingestion_idempotent c6Env c6Env c6Url c6Uid c6Store (by decide)
    (by
      intro r hr j
      have : r.id = 1 ∨ r.id = 2 := by
        rcases List.mem_cons.mp hr with h | h
        · rw [h]; left; rfl
        · rcases List.mem_cons.mp h with h2 | h2
          · rw [h2]; right; rfl
          · simp at h2
      show r.id ≠ j + 10
      omega)
    rfl).2.1

theorem overlapSeedAux_length (m ov : Nat) : ∀ (ws : List Str) (cur : Str) (sz : Nat),
    (∀ w ∈ ws, w.length ≤ m) →
    (overlapSeedAux ov ws cur sz).length ≤ max cur.length (cur.length - sz + ov + m) := by
  intro ws
  induction ws with
  | nil =>
    intro cur sz _
    simp only [overlapSeedAux]
    exact le_max_left _ _
  | cons w ws ih =>
    intro cur sz hws
    simp only [overlapSeedAux]
    by_cases hsz : sz < ov
    · rw [if_pos hsz]
      have hw : w.length ≤ m := hws w (List.mem_cons_self w ws)
      have ih2 := ih (w ++ ' ' :: cur) (sz + w.length + 1)
        (fun x hx => hws x (List.mem_cons_of_mem w hx))
      refine le_trans ih2 ?_
      have hlen : (w ++ ' ' :: cur).length = cur.length + w.length + 1 := by
        simp only [List.length_append, List.length_cons]
        omega
      rw [hlen]
      have hsub : cur.length + w.length + 1 - (sz + w.length + 1) = cur.length - sz := by
        omega
      rw [hsub]
      refine Nat.max_le.mpr ⟨?_, le_max_right _ _⟩
      refine le_trans ?_ (le_max_right _ _)
      omega
    · rw [if_neg hsz]
      exact le_max_left _ _

theorem overlapSeedAux_parts (m ov : Nat) (X : Str) : ∀ (ws : List Str) (cur : Str)
    (sz : Nat), (∀ w ∈ ws, ¬ ' ' ∈ w ∧ w.length ≤ m) →
    (∀ p ∈ splitOnChar ' ' (cur ++ X), p.length ≤ m) →
    ∀ p ∈ splitOnChar ' ' (overlapSeedAux ov ws cur sz ++ X), p.length ≤ m := by
  intro ws
  induction ws with
  | nil =>
    intro cur sz _ hbase
    simp only [overlapSeedAux]
    exact hbase
  | cons w ws ih =>
    intro cur sz hws hbase
    simp only [overlapSeedAux]
    by_cases hsz : sz < ov
    · rw [if_pos hsz]
      refine ih (w ++ ' ' :: cur) (sz + w.length + 1)
        (fun x hx => hws x (List.mem_cons_of_mem w hx)) ?_
      intro p hp
      have hassoc : (w ++ ' ' :: cur) ++ X = w ++ ' ' :: (cur ++ X) := by
        rw [List.append_assoc]
        rfl
      rw [hassoc, splitOnChar_cons_word ' ' w (cur ++ X)
        (hws w (List.mem_cons_self w ws)).1] at hp
      rcases List.mem_cons.mp hp with rfl | hp2
      · exact (hws p (List.mem_cons_self p ws)).2
      · exact hbase p hp2
    · rw [if_neg hsz]
      exact hbase

theorem parts_concat_sp_le (s : Str) (m : Nat) (hs : s.length ≤ m) :
    ∀ p ∈ splitOnChar ' ' (s ++ [' ']), p.length ≤ m := by
  intro p hp
  rw [splitOnChar_concat_sep] at hp
  rcases List.mem_append.mp hp with h | h
  · exact le_trans (splitOnChar_mem_length ' ' s p h) hs
  · rw [List.mem_singleton] at h
    rw [h]
    exact Nat.zero_le m

theorem splitStep_lenInv (m ov : Nat) (hm : 1 ≤ m) (st : List Str × Str) (sen : Str)
    (h : LenInv m ov st) : LenInv m ov (splitStep m ov st sen) := by
  obtain ⟨h1, h2, h3, h4⟩ := h
  have hrem : (hardSplit m (jsTrim sen).length (jsTrim sen)).2.length ≤ m :=
    hardSplit_rem_le m hm (jsTrim sen).length (jsTrim sen) (le_refl _)
  have hchn := hardSplit_chunks_le m (jsTrim sen).length (jsTrim sen)
  unfold splitStep
  simp only
  split_ifs with hc1 hc2
  · simp only [LenInv]
    refine ⟨?_, Or.inr (List.getLast?_concat _), ?_, ?_⟩
    · intro c hcm
      rcases List.mem_append.mp hcm with hcm1 | hcm1
      · rcases List.mem_append.mp hcm1 with hcm2 | hcm2
        · exact h1 c hcm2
        · exact le_trans (hchn c hcm2) (by omega)
      · rw [List.mem_singleton] at hcm1
        subst hcm1
        have hne : st.2 ≠ [] := by
          intro hh
          rw [hh] at hc2
          simp at hc2
        rcases h2 with h2 | h2
        · exact absurd h2 hne
        · have := jsTrim_length_lt_of_last_ws st.2 ' ' h2 (by decide)
          omega
    · intro p hp
      rw [List.append_assoc] at hp
      refine overlapSeedAux_parts m ov _ ((splitOnChar ' ' st.2).reverse) [] 0 ?_ ?_ p hp
      · intro w hw
        rw [List.mem_reverse] at hw
        exact ⟨splitOnChar_mem_no_sep ' ' st.2 w hw, h3 w hw⟩
      · intro q hq
        rw [List.nil_append] at hq
        exact parts_concat_sp_le _ m hrem q hq
    · have hseed := overlapSeedAux_length m ov ((splitOnChar ' ' st.2).reverse) [] 0
        (fun w hw => h3 w (List.mem_reverse.mp hw))
      simp only [List.length_nil] at hseed
      have hseed2 : (overlapSeedAux ov ((splitOnChar ' ' st.2).reverse) [] 0).length
          ≤ ov + m :=
        le_trans hseed (max_le (Nat.zero_le _) (by omega))
      simp only [List.length_append, List.length_cons, List.length_nil]
      omega
  · have hnil : st.2 = [] := List.length_eq_zero.mp (by omega)
    simp only [LenInv]
    refine ⟨?_, Or.inr (List.getLast?_concat _), ?_, ?_⟩
    · intro c hcm
      rcases List.mem_append.mp hcm with hcm1 | hcm1
      · exact h1 c hcm1
      · exact le_trans (hchn c hcm1) (by omega)
    · intro p hp
      rw [hnil, List.nil_append] at hp
      exact parts_concat_sp_le _ m hrem p hp
    · rw [hnil]
      simp only [List.length_append, List.length_cons, List.length_nil]
      omega
  · simp only [LenInv]
    refine ⟨?_, Or.inr (List.getLast?_concat _), ?_, ?_⟩
    · intro c hcm
      rcases List.mem_append.mp hcm with hcm1 | hcm1
      · exact h1 c hcm1
      · exact le_trans (hchn c hcm1) (by omega)
    · intro p hp
      rw [List.append_assoc] at hp
      rcases splitOnChar_mem_append ' ' st.2 _ h2 p hp with hp2 | hp2
      · exact h3 p hp2
      · exact parts_concat_sp_le _ m hrem p hp2
    · simp only [List.length_append, List.length_cons, List.length_nil]
      omega

theorem foldl_splitStep_lenInv (m ov : Nat) (hm : 1 ≤ m) : ∀ (toks : List Str)
    (st : List Str × Str), LenInv m ov st →
    LenInv m ov (toks.foldl (splitStep m ov) st) := by
  intro toks
  induction toks with
  | nil => intro st h; exact h
  | cons t ts ih =>
    intro st h
    exact ih (splitStep m ov st t) (splitStep_lenInv m ov hm st t h)

/-- C1 (amended): every chunk splitTextIntoDocuments emits has length at most
2*maxSize + min(overlap, maxSize-1) when maxSize is at least 1; the stricter
bound maxSize claimed by the spec is refuted by the separate counterexample,
because an overlap-seeded buffer joined with one more sentence is flushed
without being re-checked against maxSize. -/
theorem chunker_length_bound (text : Str) (m ov : Nat) (hm : 1 ≤ m) :
    ∀ c ∈ splitTextIntoDocuments text m ov, c.length ≤ 2 * m + min ov (m - 1) := by
  intro c hc
  unfold splitTextIntoDocuments at hc
  simp only at hc
  have hinv := foldl_splitStep_lenInv m (min ov (m - 1)) hm (jsTokenize text) ([], [])
    ⟨by intro x hx; simp at hx, Or.inl rfl,
     by
       intro p hp
       simp only [splitOnChar, List.mem_singleton] at hp
       rw [hp]
       exact Nat.zero_le m,
     by simp⟩
  obtain ⟨g1, g2, g3, g4⟩ := hinv
  by_cases hfin : 0 <
      (jsTrim ((jsTokenize text).foldl (splitStep m (min ov (m - 1))) ([], [])).2).length
  · rw [if_pos hfin] at hc
    rcases List.mem_append.mp hc with hc1 | hc1
    · exact g1 c hc1
    · rw [List.mem_singleton] at hc1
      subst hc1
      rcases g2 with g2 | g2
      · rw [g2] at hfin
        simp [jsTrim] at hfin
      · have := jsTrim_length_lt_of_last_ws _ ' ' g2 (by decide)
        omega
  · rw [if_neg hfin] at hc
    exact g1 c hc

theorem chunker_length_bound_witness :
    (("a b").toList).length ≤ 2 * 10 + min 5 (10 - 1) :=
  chunker_length_bound (("a b").toList) 10 5 (by decide) (("a b").toList) (by decide)

theorem suffix_mem_dropWhile (p : Char → Bool) : ∀ (u v : Str),
    (∃ c ∈ u, p c = false) → ∀ d ∈ v, d ∈ (u ++ v).dropWhile p := by
  intro u
  induction u with
  | nil =>
    intro v h
    obtain ⟨c, hc, _⟩ := h
    simp at hc
  | cons a u2 ih =>
    intro v h d hd
    rw [List.cons_append, List.dropWhile_cons]
    by_cases ha : p a = true
    · rw [if_pos ha]
      refine ih v ?_ d hd
      obtain ⟨c, hc, hpc⟩ := h
      rcases List.mem_cons.mp hc with rfl | hc2
      · rw [ha] at hpc; cases hpc
      · exact ⟨c, hc2, hpc⟩
    · rw [if_neg ha]
      exact List.mem_cons_of_mem a (List.mem_append_right u2 hd)

theorem not_clean_of_straddle (w x y : Str) (l e : Char)
    (hw : w = x ++ y) (hx : x.getLast? = some l) (hl : isPunctB l = true)
    (hy : y.head? = some e) (he : isPunctB e = false) : ¬ cleanWord w := by
  intro hc
  have hlm : l ∈ x := List.mem_of_mem_getLast? hx
  have hem : e ∈ y := List.mem_of_mem_head? hy
  have hsuf : e ∈ (x ++ y).dropWhile (fun d => !isPunctB d) :=
    suffix_mem_dropWhile _ x y ⟨l, hlm, by rw [hl]; rfl⟩ e hem
  rw [← hw] at hsuf
  have := hc e hsuf
  rw [he] at this
  cases this

theorem jsTrim_mem (s : Str) (c : Char) (h : c ∈ jsTrim s) : c ∈ s := by
  unfold jsTrim at h
  rw [List.mem_reverse] at h
  have h2 : c ∈ (s.dropWhile isWsB).reverse := (List.dropWhile_sublist _).subset h
  rw [List.mem_reverse] at h2
  exact (List.dropWhile_sublist _).subset h2

theorem takeWhile_append_all (p : Char → Bool) : ∀ (a b : Str),
    (∀ c ∈ a, p c = true) →
    (a ++ b).takeWhile p = a ++ b.takeWhile p ∧ (a ++ b).dropWhile p = b.dropWhile p := by
  intro a
  induction a with
  | nil => intro b _; exact ⟨rfl, rfl⟩
  | cons x a2 ih =>
    intro b h
    have hx : p x = true := h x (List.mem_cons_self x a2)
    have ih2 := ih b (fun c hc => h c (List.mem_cons_of_mem x hc))
    constructor
    · rw [List.cons_append, List.takeWhile_cons, if_pos hx, ih2.1, List.cons_append]
    · rw [List.cons_append, List.dropWhile_cons, if_pos hx, ih2.2]

theorem wordsOf_dropWhile_subset (s : Str) (w : Str)
    (h : w ∈ wordsOf (s.dropWhile (fun c => !isWsB c))) : w ∈ wordsOf s := by
  cases s with
  | nil => exact h
  | cons c t =>
    rw [List.dropWhile_cons] at h
    by_cases hc : isWsB c = true
    · rw [if_neg (by rw [hc]; simp)] at h
      exact h
    · rw [Bool.not_eq_true] at hc
      rw [if_pos (by rw [hc]; rfl)] at h
      rw [wordsOf_cons_nonws t c hc]
      exact List.mem_cons_of_mem _ h

theorem wordsOf_append_of_last_ws (X Y : Str) (h : X.getLast? = some ' ') :
    wordsOf (X ++ Y) = wordsOf X ++ wordsOf Y := by
  have hne : X ≠ [] := by
    intro hh
    rw [hh] at h
    simp at h
  have hd : X.dropLast ++ [X.getLast hne] = X := List.dropLast_append_getLast hne
  have hg : X.getLast hne = ' ' := by
    have := List.getLast?_eq_getLast X hne
    rw [h] at this
    exact (Option.some.inj this).symm
  rw [hg] at hd
  have hX2 : wordsOf X = wordsOf X.dropLast := by
    conv_lhs => rw [← hd]
    rw [show X.dropLast ++ [' '] = X.dropLast ++ ' ' :: [] from rfl,
      wordsOf_append_ws X.dropLast ' ' [] (by decide),
      show wordsOf ([] : Str) = [] from rfl, List.append_nil]
  conv_lhs => rw [← hd]
  rw [List.append_assoc, List.singleton_append,
    wordsOf_append_ws X.dropLast ' ' Y (by decide), hX2]

theorem words_buf_extend (X s : Str) (hX : X = [] ∨ X.getLast? = some ' ') :
    wordsOf (X ++ s ++ [' ']) = wordsOf X ++ wordsOf s := by
  have hs : wordsOf (s ++ [' ']) = wordsOf s := by
    rw [show s ++ [' '] = s ++ ' ' :: [] from rfl,
      wordsOf_append_ws s ' ' [] (by decide),
      show wordsOf ([] : Str) = [] from rfl, List.append_nil]
  rcases hX with rfl | hX
  · rw [List.nil_append, hs, show wordsOf ([] : Str) = [] from rfl, List.nil_append]
  · rw [List.append_assoc, wordsOf_append_of_last_ws X (s ++ [' ']) hX, hs]

theorem overlapSeedAux_shape (ov : Nat) : ∀ (ws : List Str) (cur : Str) (sz : Nat),
    (cur = [] ∨ cur.getLast? = some ' ') →
    (overlapSeedAux ov ws cur sz = [] ∨
      (overlapSeedAux ov ws cur sz).getLast? = some ' ') := by
  intro ws
  induction ws with
  | nil => intro cur sz h; exact h
  | cons w ws2 ih =>
    intro cur sz h
    simp only [overlapSeedAux]
    by_cases hsz : sz < ov
    · rw [if_pos hsz]
      refine ih (w ++ ' ' :: cur) (sz + w.length + 1) (Or.inr ?_)
      rw [List.getLast?_append_of_ne_nil w (List.cons_ne_nil ' ' cur)]
      rcases h with rfl | h
      · rfl
      · cases hc : cur with
        | nil => rw [hc] at h; simp at h
        | cons a t =>
          rw [hc] at h
          rw [List.getLast?_cons_cons]
          exact h
    · rw [if_neg hsz]
      exact h

theorem splitStep_ends_sp (m ov : Nat) (st : List Str × Str) (sen : Str) :
    ((splitStep m ov st sen).2).getLast? = some ' ' := by
  unfold splitStep
  simp only
  split_ifs <;> exact List.getLast?_concat _

theorem jsTokenizeAux_mem_subset : ∀ (fuel : Nat) (s : Str),
    ∀ t ∈ jsTokenizeAux fuel s, ∀ c ∈ t, c ∈ s := by
  intro fuel
  induction fuel with
  | zero => intro s t ht; simp [jsTokenizeAux] at ht
  | succ fuel ih =>
    intro s t ht c hc
    cases s with
    | nil => simp [jsTokenizeAux] at ht
    | cons a s2 =>
      rw [jsTokenizeAux] at ht
      simp only at ht
      by_cases h1 : ((a :: s2).takeWhile (fun d => !isPunctB d)).length ≠ 0 ∧
          ((a :: s2).dropWhile (fun d => !isPunctB d)).length ≠ 0
      · rw [if_pos h1] at ht
        rcases List.mem_cons.mp ht with rfl | ht2
        · rcases List.mem_append.mp hc with hc1 | hc1
          · exact (List.takeWhile_sublist _).subset hc1
          · exact (List.dropWhile_sublist _).subset
              ((List.takeWhile_sublist _).subset hc1)
        · exact (List.dropWhile_sublist _).subset
            ((List.dropWhile_sublist _).subset (ih _ t ht2 c hc))
      · rw [if_neg h1] at ht
        by_cases h2 : ¬ isWsB a = true
        · rw [if_pos h2] at ht
          rcases List.mem_cons.mp ht with rfl | ht2
          · exact (List.takeWhile_sublist _).subset hc
          · exact (List.dropWhile_sublist _).subset (ih _ t ht2 c hc)
        · rw [if_neg h2] at ht
          exact List.mem_cons_of_mem a (ih s2 t ht c hc)

theorem jsTokenizeAux_cover : ∀ (fuel : Nat) (s : Str), s.length ≤ fuel →
    ∀ w ∈ wordsOf s, cleanWord w → ∃ t ∈ jsTokenizeAux fuel s, w ∈ wordsOf t := by
  intro fuel
  induction fuel with
  | zero =>
    intro s hs w hw _
    have hnil : s = [] := List.length_eq_zero.mp (Nat.le_zero.mp hs)
    subst hnil
    exact absurd hw (by simp [wordsOf])
  | succ fuel ih =>
    intro s hs w hw hcl
    cases s with
    | nil => exact absurd hw (by simp [wordsOf])
    | cons a s2 =>
      rw [jsTokenizeAux]
      simp only
      by_cases h1 : ((a :: s2).takeWhile (fun d => !isPunctB d)).length ≠ 0 ∧
          ((a :: s2).dropWhile (fun d => !isPunctB d)).length ≠ 0
      · rw [if_pos h1]
        obtain ⟨run1, hrun1⟩ : ∃ x : Str,
            (a :: s2).takeWhile (fun d => !isPunctB d) = x := ⟨_, rfl⟩
        obtain ⟨rest1, hrest1⟩ : ∃ x : Str,
            (a :: s2).dropWhile (fun d => !isPunctB d) = x := ⟨_, rfl⟩
        rw [hrun1, hrest1] at h1 ⊢
        obtain ⟨run2, hrun2⟩ : ∃ x : Str, rest1.takeWhile isPunctB = x := ⟨_, rfl⟩
        obtain ⟨rest2, hrest2⟩ : ∃ x : Str, rest1.dropWhile isPunctB = x := ⟨_, rfl⟩
        rw [hrun2, hrest2]
        have e1 : run1 ++ rest1 = a :: s2 := by
          rw [← hrun1, ← hrest1]
          exact List.takeWhile_append_dropWhile _ _
        have e2 : run2 ++ rest2 = rest1 := by
          rw [← hrun2, ← hrest2]
          exact List.takeWhile_append_dropWhile _ _
        have hs_eq : a :: s2 = (run1 ++ run2) ++ rest2 := by
          rw [← e1, ← e2, List.append_assoc]
        obtain ⟨p, r1, hr1⟩ : ∃ p r1, rest1 = p :: r1 := by
          cases rest1 with
          | nil => exact absurd rfl h1.2
          | cons p r1 => exact ⟨p, r1, rfl⟩
        have hp : isPunctB p = true := by
          have := dropWhile_head_false (fun d => !isPunctB d) (a :: s2) p
            (by rw [hrest1, hr1]; rfl)
          simpa using this
        have hrun2c : run2 = p :: r1.takeWhile isPunctB := by
          rw [← hrun2, hr1, List.takeWhile_cons, if_pos hp]
        have hne2 : run2 ≠ [] := by rw [hrun2c]; exact List.cons_ne_nil _ _
        have hallp : ∀ c ∈ run2, isPunctB c = true := by
          intro c hc
          rw [← hrun2] at hc
          exact List.mem_takeWhile_imp hc
        have hl : run2.getLast? = some (run2.getLast hne2) :=
          List.getLast?_eq_getLast run2 hne2
        have htl : (run1 ++ run2).getLast? = some (run2.getLast hne2) := by
          rw [List.getLast?_append_of_ne_nil run1 hne2]
          exact hl
        have hlp : isPunctB (run2.getLast hne2) = true :=
          hallp _ (List.mem_of_mem_getLast? hl)
        have hlen1 : run1.length ≠ 0 := h1.1
        have hlen_eq : s2.length + 1 = run1.length + run2.length + rest2.length := by
          have := congrArg List.length hs_eq
          simp only [List.length_append, List.length_cons] at this
          omega
        rw [hs_eq] at hw
        cases rest2 with
        | nil =>
          rw [List.append_nil] at hw
          exact ⟨run1 ++ run2, List.mem_cons_self _ _, hw⟩
        | cons e rest3 =>
          have hef : isPunctB e = false := by
            have := dropWhile_head_false isPunctB rest1 e (by rw [hrest2]; rfl)
            exact this
          have hrlen : (e :: rest3).length ≤ fuel := by
            simp only [List.length_cons] at hs hlen_eq ⊢
            omega
          by_cases hews : isWsB e = true
          · rw [wordsOf_append_ws (run1 ++ run2) e rest3 hews] at hw
            rcases List.mem_append.mp hw with hw1 | hw1
            · exact ⟨run1 ++ run2, List.mem_cons_self _ _, hw1⟩
            · obtain ⟨t, ht, hwt⟩ := ih (e :: rest3)
                hrlen w (by rw [wordsOf_cons_ws e rest3 hews]; exact hw1) hcl
              exact ⟨t, List.mem_cons_of_mem _ ht, hwt⟩
          · rw [Bool.not_eq_true] at hews
            rcases wordsOf_append_cases_aux (run1 ++ run2).length (run1 ++ run2)
                (le_refl _) (e :: rest3) e rfl hews w hw with hw1 | hw1 | hw1
            · exact ⟨run1 ++ run2, List.mem_cons_self _ _, hw1⟩
            · obtain ⟨t, ht, hwt⟩ := ih (e :: rest3) hrlen w hw1 hcl
              exact ⟨t, List.mem_cons_of_mem _ ht, hwt⟩
            · obtain ⟨l, x, y, hlast, _, hwxy, _, _, hxl, hye⟩ := hw1
              have hleq : l = run2.getLast hne2 :=
                Option.some.inj (hlast.symm.trans htl)
              exact absurd hcl
                (not_clean_of_straddle w x y l e hwxy hxl (hleq ▸ hlp) hye hef)
      · rw [if_neg h1]
        by_cases h2 : ¬ isWsB a = true
        · rw [if_pos h2]
          have ha : isWsB a = false := Bool.eq_false_iff.mpr h2
          obtain ⟨tok, htok⟩ : ∃ x : Str,
              (a :: s2).takeWhile (fun d => !isWsB d) = x := ⟨_, rfl⟩
          obtain ⟨rest, hrest⟩ : ∃ x : Str,
              (a :: s2).dropWhile (fun d => !isWsB d) = x := ⟨_, rfl⟩
          rw [htok, hrest]
          have e1 : tok ++ rest = a :: s2 := by
            rw [← htok, ← hrest]
            exact List.takeWhile_append_dropWhile _ _
          have htokc : tok = a :: s2.takeWhile (fun d => !isWsB d) := by
            rw [← htok, List.takeWhile_cons, if_pos (by rw [ha]; rfl)]
          rw [← e1] at hw
          cases rest with
          | nil =>
            rw [List.append_nil] at hw
            exact ⟨tok, List.mem_cons_self _ _, hw⟩
          | cons e rest3 =>
            have hews : isWsB e = true := by
              have := dropWhile_head_false (fun d => !isWsB d) (a :: s2) e
                (by rw [hrest]; rfl)
              simpa using this
            have hrlen : (e :: rest3).length ≤ fuel := by
              have := congrArg List.length e1
              simp only [List.length_append, List.length_cons] at this hs ⊢
              have htne : tok.length ≠ 0 := by rw [htokc]; simp
              omega
            rw [wordsOf_append_ws tok e rest3 hews] at hw
            rcases List.mem_append.mp hw with hw1 | hw1
            · exact ⟨tok, List.mem_cons_self _ _, hw1⟩
            · obtain ⟨t, ht, hwt⟩ := ih (e :: rest3)
                hrlen w (by rw [wordsOf_cons_ws e rest3 hews]; exact hw1) hcl
              exact ⟨t, List.mem_cons_of_mem _ ht, hwt⟩
        · rw [if_neg h2]
          have ha : isWsB a = true := Decidable.not_not.mp h2
          rw [wordsOf_cons_ws a s2 ha] at hw
          refine ih s2 ?_ w hw hcl
          simp only [List.length_cons] at hs
          omega

theorem hardSplit_cover (m : Nat) (hm : 1 ≤ m) : ∀ (fuel : Nat) (s : Str),
    s.length ≤ fuel → jsTrim s = s → (∀ c ∈ s, isWsB c = true → c = ' ') →
    ∀ w ∈ wordsOf s, w.length ≤ m →
    (∃ ch ∈ (hardSplit m fuel s).1, w ∈ wordsOf ch) ∨
      w ∈ wordsOf ((hardSplit m fuel s).2) := by
  intro fuel
  induction fuel with
  | zero =>
    intro s hs _ _ w hw _
    have hnil : s = [] := List.length_eq_zero.mp (Nat.le_zero.mp hs)
    subst hnil
    exact absurd hw (by simp [wordsOf])
  | succ fuel ih =>
    intro s hs htr hws w hw hwlen
    by_cases hle : s.length ≤ m
    · simp only [hardSplit, if_pos hle]
      exact Or.inr hw
    · simp only [hardSplit, if_neg hle]
      obtain ⟨c0, s0, hs0⟩ : ∃ c0 s0, s = c0 :: s0 := by
        cases s with
        | nil => exact absurd (Nat.zero_le m) (by simpa using hle)
        | cons c0 s0 => exact ⟨c0, s0, rfl⟩
      have hc0 : isWsB c0 = false := jsTrim_head_not_ws s c0 (by rw [htr, hs0]; rfl)
      rcases hlsi : lastSpaceIdx (s.take m) with _ | i
      · simp only
        have hchne : ∀ c ∈ s.take m, isWsB c = false := by
          intro c hc
          cases hb : isWsB c with
          | false => rfl
          | true =>
            have hsp : c = ' ' := hws c (List.take_subset m s hc) hb
            rw [hsp] at hc
            exact absurd hc (lastSpaceIdx_none _ hlsi)
        have hsplit : s.take m ++ s.drop m = s := List.take_append_drop m s
        have htd := takeWhile_append_all (fun d => !isWsB d) (s.take m) (s.drop m)
          (fun c hc => by show (!isWsB c) = true; rw [hchne c hc]; rfl)
        have hchlen : (s.take m).length = m := by
          rw [List.length_take]
          omega
        rw [hs0, wordsOf_cons_nonws s0 c0 hc0] at hw
        have hfw : c0 :: s0.takeWhile (fun d => !isWsB d) =
            s.takeWhile (fun d => !isWsB d) := by
          rw [hs0, List.takeWhile_cons,
            if_pos (by show (!isWsB c0) = true; rw [hc0]; rfl)]
        have hdw : s0.dropWhile (fun d => !isWsB d) =
            s.dropWhile (fun d => !isWsB d) := by
          rw [hs0, List.dropWhile_cons,
            if_pos (by show (!isWsB c0) = true; rw [hc0]; rfl)]
        rw [hfw, hdw] at hw
        rcases List.mem_cons.mp hw with rfl | hw2
        · have hfw2 : s.takeWhile (fun d => !isWsB d) =
              s.take m ++ (s.drop m).takeWhile (fun d => !isWsB d) := by
            conv_lhs => rw [← hsplit]
            exact htd.1
          have hlen0 : ((s.drop m).takeWhile (fun d => !isWsB d)).length = 0 := by
            have hlw := congrArg List.length hfw2
            simp only [List.length_append, hchlen] at hlw
            omega
          have htwnil : (s.drop m).takeWhile (fun d => !isWsB d) = [] :=
            List.length_eq_zero.mp hlen0
          have hweq : s.takeWhile (fun d => !isWsB d) = s.take m := by
            rw [hfw2, htwnil, List.append_nil]
          left
          refine ⟨s.take m, List.mem_cons_self _ _, ?_⟩
          rw [wordsOf_all_nonws (s.take m)
            (by intro hh; rw [hh] at hchlen; simp at hchlen; omega) hchne,
            List.mem_singleton]
          exact hweq
        · have hdw2 : s.dropWhile (fun d => !isWsB d) =
              (s.drop m).dropWhile (fun d => !isWsB d) := by
            conv_lhs => rw [← hsplit]
            exact htd.2
          rw [hdw2] at hw2
          have hw4 : w ∈ wordsOf (jsTrim (s.drop m)) := by
            rw [wordsOf_jsTrim]
            exact wordsOf_dropWhile_subset _ w hw2
          have hlenr : (jsTrim (s.drop m)).length ≤ fuel := by
            have h1 := jsTrim_length_le (s.drop m)
            simp only [List.length_drop] at h1
            omega
          rcases ih (jsTrim (s.drop m)) hlenr (jsTrim_idem _)
              (fun c hc hb => hws c (List.drop_subset m s (jsTrim_mem _ c hc)) hb)
              w hw4 hwlen with ⟨ch, hch, hwch⟩ | hrem
          · exact Or.inl ⟨ch, List.mem_cons_of_mem _ hch, hwch⟩
          · exact Or.inr hrem
      · simp only
        have hilt : i < (s.take m).length := lastSpaceIdx_lt _ i hlsi
        have hchlen : (s.take m).length = m := by
          rw [List.length_take]
          omega
        have him : i < m := by omega
        have hgs : s.get? i = some ' ' := by
          have h1 := lastSpaceIdx_some (s.take m) i hlsi
          rw [List.get?_take him] at h1
          exact h1
        by_cases hi : 0 < i
        · rw [if_pos hi]
          simp only
          have hisl : i < s.length := by omega
          have hdropi : s.drop i = ' ' :: s.drop (i + 1) := by
            have h2 := List.drop_eq_getElem_cons hisl
            have h3 : s[i] = ' ' := by
              have h4 : s[i]? = some ' ' := by
                rw [← List.get?_eq_getElem?]
                exact hgs
              rw [List.getElem?_eq_getElem hisl] at h4
              exact Option.some.inj h4
            rw [h3] at h2
            exact h2
          have htake2 : (s.take m).take i = s.take i := by
            rw [List.take_take, min_eq_left (le_of_lt him)]
          have hwrd : wordsOf s = wordsOf (s.take i) ++ wordsOf (s.drop (i + 1)) := by
            conv_lhs => rw [← List.take_append_drop i s]
            rw [hdropi, wordsOf_append_ws _ ' ' _ (by decide)]
          rw [hwrd] at hw
          rcases List.mem_append.mp hw with hw1 | hw1
          · left
            refine ⟨jsTrim ((s.take m).take i), List.mem_cons_self _ _, ?_⟩
            rw [wordsOf_jsTrim, htake2]
            exact hw1
          · have hwj : w ∈ wordsOf (jsTrim (s.drop i)) := by
              rw [wordsOf_jsTrim, hdropi, wordsOf_cons_ws ' ' _ (by decide)]
              exact hw1
            have hlenr : (jsTrim (s.drop i)).length ≤ fuel := by
              have h1 := jsTrim_length_le (s.drop i)
              simp only [List.length_drop] at h1
              omega
            rcases ih (jsTrim (s.drop i)) hlenr (jsTrim_idem _)
                (fun c hc hb => hws c (List.drop_subset i s (jsTrim_mem _ c hc)) hb)
                w hwj hwlen with ⟨ch, hch, hwch⟩ | hrem
            · exact Or.inl ⟨ch, List.mem_cons_of_mem _ hch, hwch⟩
            · exact Or.inr hrem
        · exfalso
          have h0 : i = 0 := by omega
          subst h0
          have hg0 : s.get? 0 = some ' ' := hgs
          rw [hs0] at hg0
          have hcsp : c0 = ' ' := Option.some.inj hg0
          rw [hcsp] at hc0
          exact absurd hc0 (by decide)

theorem splitStep_cover (m ov : Nat) (hm : 1 ≤ m) (st : List Str × Str) (sen : Str)
    (hst : st.2 = [] ∨ st.2.getLast? = some ' ')
    (hsen : ∀ c ∈ sen, isWsB c = true → c = ' ')
    (w : Str) (hwlen : w.length ≤ m)
    (hsrc : w ∈ wordsOf sen ∨ w ∈ wordsOf st.2) :
    (∃ ch ∈ (splitStep m ov st sen).1, w ∈ wordsOf ch) ∨
      w ∈ wordsOf ((splitStep m ov st sen).2) := by
  have hcov := hardSplit_cover m hm (jsTrim sen).length (jsTrim sen) (le_refl _)
    (jsTrim_idem sen) (fun c hc hb => hsen c (jsTrim_mem sen c hc) hb)
  unfold splitStep
  simp only
  split_ifs with hc1 hc2
  · rcases hsrc with hw1 | hw2
    · rw [← wordsOf_jsTrim sen] at hw1
      rcases hcov w hw1 hwlen with ⟨c, hcm, hwc⟩ | hrem
      · exact Or.inl ⟨c, List.mem_append_left _ (List.mem_append_right _ hcm), hwc⟩
      · right
        rw [words_buf_extend _ _ (overlapSeedAux_shape ov _ [] 0 (Or.inl rfl))]
        exact List.mem_append_right _ hrem
    · left
      exact ⟨jsTrim st.2, List.mem_append_right _ (List.mem_singleton.mpr rfl),
        by rw [wordsOf_jsTrim]; exact hw2⟩
  · have hnil : st.2 = [] := List.length_eq_zero.mp (by omega)
    rcases hsrc with hw1 | hw2
    · rw [← wordsOf_jsTrim sen] at hw1
      rcases hcov w hw1 hwlen with ⟨c, hcm, hwc⟩ | hrem
      · exact Or.inl ⟨c, List.mem_append_right _ hcm, hwc⟩
      · right
        rw [words_buf_extend st.2 _ (Or.inl hnil)]
        exact List.mem_append_right _ hrem
    · rw [hnil] at hw2
      exact absurd hw2 (by simp [wordsOf])
  · rcases hsrc with hw1 | hw2
    · rw [← wordsOf_jsTrim sen] at hw1
      rcases hcov w hw1 hwlen with ⟨c, hcm, hwc⟩ | hrem
      · exact Or.inl ⟨c, List.mem_append_right _ hcm, hwc⟩
      · right
        rw [words_buf_extend st.2 _ hst]
        exact List.mem_append_right _ hrem
    · right
      rw [words_buf_extend st.2 _ hst]
      exact List.mem_append_left _ hw2

theorem foldl_splitStep_docs_mono (m ov : Nat) : ∀ (toks : List Str)
    (st : List Str × Str) (c : Str), c ∈ st.1 →
    c ∈ (toks.foldl (splitStep m ov) st).1 := by
  intro toks
  induction toks with
  | nil => intro st c hc; exact hc
  | cons t ts ih =>
    intro st c hc
    rw [List.foldl_cons]
    refine ih _ c ?_
    unfold splitStep
    simp only
    split_ifs
    · exact List.mem_append_left _ (List.mem_append_left _ hc)
    · exact List.mem_append_left _ hc
    · exact List.mem_append_left _ hc

theorem foldl_splitStep_cover (m ov : Nat) (hm : 1 ≤ m) : ∀ (toks : List Str)
    (st : List Str × Str), (st.2 = [] ∨ st.2.getLast? = some ' ') →
    (∀ t ∈ toks, ∀ c ∈ t, isWsB c = true → c = ' ') →
    ∀ w : Str, w.length ≤ m →
    ((∃ t ∈ toks, w ∈ wordsOf t) ∨ w ∈ wordsOf st.2) →
    (∃ ch ∈ (toks.foldl (splitStep m ov) st).1, w ∈ wordsOf ch) ∨
      w ∈ wordsOf ((toks.foldl (splitStep m ov) st).2) := by
  intro toks
  induction toks with
  | nil =>
    intro st _ _ w _ hsrc
    rcases hsrc with ⟨t, ht, _⟩ | h
    · simp at ht
    · exact Or.inr h
  | cons t ts ih =>
    intro st hst htoks w hwlen hsrc
    rw [List.foldl_cons]
    have htoks2 : ∀ u ∈ ts, ∀ c ∈ u, isWsB c = true → c = ' ' :=
      fun u hu => htoks u (List.mem_cons_of_mem t hu)
    rcases hsrc with ⟨tok, htok, hwtok⟩ | hbuf
    · rcases List.mem_cons.mp htok with rfl | htok2
      · rcases splitStep_cover m ov hm st tok hst
            (htoks tok (List.mem_cons_self tok ts))
            w hwlen (Or.inl hwtok) with ⟨c, hcm, hwc⟩ | hbuf2
        · exact Or.inl ⟨c, foldl_splitStep_docs_mono m ov ts _ c hcm, hwc⟩
        · exact ih _ (Or.inr (splitStep_ends_sp m ov st tok)) htoks2 w hwlen
            (Or.inr hbuf2)
      · exact ih _ (Or.inr (splitStep_ends_sp m ov st t)) htoks2 w hwlen
          (Or.inl ⟨tok, htok2, hwtok⟩)
    · rcases splitStep_cover m ov hm st t hst (htoks t (List.mem_cons_self t ts))
          w hwlen (Or.inr hbuf) with ⟨c, hcm, hwc⟩ | hbuf2
      · exact Or.inl ⟨c, foldl_splitStep_docs_mono m ov ts _ c hcm, hwc⟩
      · exact ih _ (Or.inr (splitStep_ends_sp m ov st t)) htoks2 w hwlen (Or.inr hbuf2)

/-- C4 (amended): every whitespace-delimited word of the input that has
length at most maxSize and contains no sentence terminator followed by a
further non-terminator character inside it appears intact as a
whitespace-delimited word of some emitted chunk, provided the input's
whitespace consists of plain spaces and maxSize is at least 1; the
unconditional preservation claimed by the spec is refuted by the separate
counterexample, because the sentence regex splits a word at an internal
terminator boundary. -/
theorem chunker_coverage (text : Str) (m ov : Nat) (hm : 1 ≤ m)
    (hws : ∀ c ∈ text, isWsB c = true → c = ' ')
    (w : Str) (hw : w ∈ wordsOf text) (hcl : cleanWord w) (hwlen : w.length ≤ m) :
    ∃ ch ∈ splitTextIntoDocuments text m ov, w ∈ wordsOf ch := by
  obtain ⟨t, ht, hwt⟩ := jsTokenizeAux_cover text.length text (le_refl _) w hw hcl
  have htoks : ∀ u ∈ jsTokenize text, ∀ c ∈ u, isWsB c = true → c = ' ' :=
    fun u hu c hc hb => hws c (jsTokenizeAux_mem_subset text.length text u hu c hc) hb
  have hcov := foldl_splitStep_cover m (min ov (m - 1)) hm (jsTokenize text) ([], [])
    (Or.inl rfl) htoks w hwlen (Or.inl ⟨t, ht, hwt⟩)
  unfold splitTextIntoDocuments
  simp only
  rcases hcov with ⟨c, hcm, hwc⟩ | hbuf
  · refine ⟨c, ?_, hwc⟩
    split_ifs with hfin
    · exact List.mem_append_left _ hcm
    · exact hcm
  · have hfin : 0 < (jsTrim (((jsTokenize text).foldl
        (splitStep m (min ov (m - 1))) ([], [])).2)).length := by
      by_contra hno
      have hnil : jsTrim (((jsTokenize text).foldl
          (splitStep m (min ov (m - 1))) ([], [])).2) = [] :=
        List.length_eq_zero.mp (by omega)
      have hwnil : wordsOf (((jsTokenize text).foldl
          (splitStep m (min ov (m - 1))) ([], [])).2) = [] := by
        rw [← wordsOf_jsTrim, hnil]
        rfl
      rw [hwnil] at hbuf
      simp at hbuf
    rw [if_pos hfin]
    exact ⟨jsTrim (((jsTokenize text).foldl (splitStep m (min ov (m - 1))) ([], [])).2),
      List.mem_append_right _ (List.mem_singleton.mpr rfl),
      by rw [wordsOf_jsTrim]; exact hbuf⟩

theorem chunker_coverage_witness :
    ∃ ch ∈ splitTextIntoDocuments (("ab. cd").toList) 10 5,
      (("cd").toList) ∈ wordsOf ch :=
  chunker_coverage (("ab. cd").toList) 10 5 (by decide) (by decide)
    (("cd").toList) (by decide) (by unfold cleanWord; decide) (by decide)
